import Mathlib

/-!
# Verification of EuropeOrthoViewer capability-parsing helpers

Shallow embedding of the pure helper functions of the EuropeOrthoViewer
QGIS plugin (`wms_utils.py`, `wmts_utils.py`, `rest_utils.py`) together
with proofs of the behavioural properties stated in the specification.

Python strings are modelled as Lean `String`/`List Char`; the ASCII
string operations (`lower`, `strip`, `split`, substring membership) are
re-implemented explicitly below so that each definition mirrors the
Python semantics used by the source.
-/

namespace EuropeOrtho

/-! ## Python-style character and string primitives -/

/-- Python `str.lower()` on a single character (ASCII range, which is the
only range exercised by the plugin's protocol tokens). -/
def pyLowerChar (c : Char) : Char :=
  if 65 ≤ c.toNat && c.toNat ≤ 90 then Char.ofNat (c.toNat + 32) else c

/-- Python `str.upper()` on a single character (ASCII range). -/
def pyUpperChar (c : Char) : Char :=
  if 97 ≤ c.toNat && c.toNat ≤ 122 then Char.ofNat (c.toNat - 32) else c

/-- Python `str.lower()`. -/
def pyLower (s : String) : String := String.mk (s.data.map pyLowerChar)

/-- Python `str.upper()`. -/
def pyUpper (s : String) : String := String.mk (s.data.map pyUpperChar)

/-- Python whitespace characters recognised by `str.strip()`/`str.split()`. -/
def pyWs (c : Char) : Bool := c.toNat == 32 || (9 ≤ c.toNat && c.toNat ≤ 13)

/-- Python `str.strip()` (whitespace at both ends). -/
def pyStrip (s : String) : String :=
  String.mk (((s.data.dropWhile pyWs).reverse.dropWhile pyWs).reverse)

/-- Does `needle` occur at the head of `hay`? (helper for substring tests) -/
def leadsWith : List Char → List Char → Bool
  | [], _ => true
  | _ :: _, [] => false
  | n :: ns, h :: hs => n == h && leadsWith ns hs

/-- Python `needle in hay` substring membership, on character lists. -/
def hasSub (needle : List Char) : List Char → Bool
  | [] => needle.isEmpty
  | c :: hs => leadsWith needle (c :: hs) || hasSub needle hs

/-- Python `needle in hay` substring membership on strings. -/
def strHasSub (needle hay : String) : Bool := hasSub needle.data hay.data

/-- Python `hay.startswith(needle)` on strings. -/
def strLeadsWith (needle hay : String) : Bool := leadsWith needle.data hay.data

/-- Split a character list at every character satisfying `p`
(Python `str.split(sep)` semantics with single-character separators:
empty pieces are kept). -/
def splitOnPred (p : Char → Bool) : List Char → List (List Char)
  | [] => [[]]
  | c :: rest =>
    if p c then [] :: splitOnPred p rest
    else
      match splitOnPred p rest with
      | [] => [[c]]
      | h :: t => (c :: h) :: t

/-- Python `s.split(sep)` for a single-character separator. -/
def splitOnSep (sep : Char) (l : List Char) : List (List Char) :=
  splitOnPred (fun c => c == sep) l

/-- Python `s.split()` (split on whitespace runs, dropping empty pieces). -/
def pySplitWs (s : String) : List String :=
  ((splitOnPred pyWs s.data).filter (fun l => l ≠ [])).map String.mk

/-- Python single-character `str.replace(old, new)` (character map, since a
single-character pattern cannot overlap). -/
def charReplace (old new : Char) (s : String) : String :=
  String.mk (s.data.map (fun c => if c == old then new else c))

/-- Python `str.replace("::", ":")`: left-to-right, non-overlapping. -/
def collapseDoubleColons : List Char → List Char
  | ':' :: ':' :: rest => ':' :: collapseDoubleColons rest
  | c :: rest => c :: collapseDoubleColons rest
  | [] => []

/-- `str.replace("::", ":")` on strings. -/
def strCollapseColons (s : String) : String := String.mk (collapseDoubleColons s.data)

/-- Remove every space character (Python `s.replace(" ", "")`). -/
def dropSpaces (s : String) : String := String.mk (s.data.filter (fun c => c ≠ ' '))

/-- Python `str.isdigit()` restricted to ASCII digits (the only digits
appearing in EPSG codes and ArcGIS layer ids). -/
def pyIsDigit (s : String) : Bool :=
  s.data ≠ [] && s.data.all (fun c => 48 ≤ c.toNat && c.toNat ≤ 57)

/-- Python `int(...)` on a string of ASCII digits. -/
def digitsToNat (s : String) : Nat :=
  s.data.foldl (fun n c => n * 10 + (c.toNat - 48)) 0

/-- Lexicographic `≤` on character lists by code point (Python string order). -/
def charListLe : List Char → List Char → Bool
  | [], _ => true
  | _ :: _, [] => false
  | a :: as, b :: bs =>
    if a.toNat < b.toNat then true
    else if b.toNat < a.toNat then false
    else charListLe as bs

/-- Python `s <= t` on strings. -/
def strLeB (a b : String) : Bool := charListLe a.data b.data

/-- Insert into a `strLeB`-sorted list (stable). -/
def insertSorted (s : String) : List String → List String
  | [] => [s]
  | t :: rest => if strLeB s t then s :: t :: rest else t :: insertSorted s rest

/-- Ascending insertion sort by Python string order. -/
def sortStrings (l : List String) : List String := l.foldr insertSorted []

/-- Python `sorted(set(l))`: deduplicate, then sort ascending. -/
def sortedDedup (l : List String) : List String := sortStrings l.eraseDups

/-! ## WMTS default matrix set (`wmts_utils._prefer_matrix_set`) -/

/-- A WMTS `TileMatrixSetLink` as collected by `_parse_layers`:
the set identifier and the CRS string resolved from the
`TileMatrixSet` lookup (`None` when the set had no `SupportedCRS`). -/
structure TmsLink where
  id : String
  crs : Option String
deriving Repr, DecidableEq

/-- `is_3857` from `_prefer_matrix_set`: lowercase, collapse `::`, then
test for "3857", "900913", or (spaces removed) "webmercator". -/
def is3857 (crs : Option String) : Bool :=
  let s := strCollapseColons (pyLower (crs.getD ""))
  strHasSub "3857" s || strHasSub "900913" s || strHasSub "webmercator" (dropSpaces s)

/-- `is_4326` from `_prefer_matrix_set`: lowercase, then test for "4326"
or (spaces removed) "wgs84". -/
def is4326 (crs : Option String) : Bool :=
  let s := pyLower (crs.getD "")
  strHasSub "4326" s || strHasSub "wgs84" (dropSpaces s)

/-- The sequential `for s in sets: if p s: return s["id"]` loop. -/
def scanMatrixSets (p : TmsLink → Bool) : List TmsLink → Option String
  | [] => none
  | s :: rest => if p s then some s.id else scanMatrixSets p rest

/-- `wmts_utils._prefer_matrix_set`: first 3857-indicating set, else first
4326-indicating set, else the first set; `None` on an empty list. -/
def preferMatrixSet (sets : List TmsLink) : Option String :=
  match sets with
  | [] => none
  | s0 :: _ =>
    match scanMatrixSets (fun s => is3857 s.crs) sets with
    | some i => some i
    | none =>
      match scanMatrixSets (fun s => is4326 s.crs) sets with
      | some i => some i
      | none => some s0.id

/-! ## WMTS default format (`wmts_utils._prefer_format`) -/

/-- One `for c in candidates: if c.lower() == pref: return c` scan. -/
def scanExact (pref : String) : List String → Option String
  | [] => none
  | c :: rest => if pyLower c == pref then some c else scanExact pref rest

/-- The nested loops `for pref in prefs: for c in candidates: ...`. -/
def scanExactList (prefs : List String) (cs : List String) : Option String :=
  match prefs with
  | [] => none
  | p :: ps =>
    match scanExact p cs with
    | some c => some c
    | none => scanExactList ps cs

/-- `for c in candidates: if needle in c.lower(): return c`. -/
def scanSub (needle : String) : List String → Option String
  | [] => none
  | c :: rest => if strHasSub needle (pyLower c) then some c else scanSub needle rest

/-- The candidate list computed by `_prefer_format`: non-empty formats,
with the pseudo-token `image/jpgpng` filtered out unless that filtering
would leave nothing. -/
def formatCandidates (fmts : List String) : List String :=
  let nonEmpty := fmts.filter (fun f => f ≠ "")
  let filtered := nonEmpty.filter (fun f => pyLower f ≠ "image/jpgpng")
  if filtered.isEmpty then nonEmpty else filtered

/-- `wmts_utils._prefer_format`: choose a concrete image format.
Preference: exact png/png8/png32 match, else any format containing
"png", else exact jpeg/jpg, else the first remaining candidate. -/
def preferFormat (fmts : List String) : Option String :=
  if fmts.isEmpty then none
  else
    let candidates := formatCandidates fmts
    match scanExactList ["image/png", "image/png8", "image/png32"] candidates with
    | some c => some c
    | none =>
      match scanSub "png" candidates with
      | some c => some c
      | none =>
        match scanExactList ["image/jpeg", "image/jpg"] candidates with
        | some c => some c
        | none => candidates.head?

/-! ### Helper lemmas for the scan loops -/

theorem scanMatrixSets_eq_find? (p : TmsLink → Bool) (l : List TmsLink) :
    scanMatrixSets p l = (l.find? p).map TmsLink.id := by
  induction l with
  | nil => rfl
  | cons s rest ih =>
    by_cases h : p s
    · simp [scanMatrixSets, List.find?, h]
    · simp [scanMatrixSets, List.find?, h, ih]

theorem scanExact_eq_find? (pref : String) (l : List String) :
    scanExact pref l = l.find? (fun c => pyLower c == pref) := by
  induction l with
  | nil => rfl
  | cons c rest ih =>
    by_cases h : pyLower c == pref
    · simp [scanExact, List.find?, h]
    · simp only [scanExact, List.find?, h, if_neg] at *
      simpa [h] using ih

theorem scanSub_eq_find? (needle : String) (l : List String) :
    scanSub needle l = l.find? (fun c => strHasSub needle (pyLower c)) := by
  induction l with
  | nil => rfl
  | cons c rest ih =>
    by_cases h : strHasSub needle (pyLower c)
    · simp [scanSub, List.find?, h]
    · simp only [scanSub, List.find?, h] at *
      simpa [h] using ih

theorem scanExact_mem (pref : String) (l : List String) (c : String)
    (h : scanExact pref l = some c) : c ∈ l ∧ pyLower c = pref := by
  rw [scanExact_eq_find?] at h
  have h1 := List.mem_of_find?_eq_some h
  have h2 := List.find?_some h
  exact ⟨h1, by simpa using h2⟩

theorem scanSub_mem (needle : String) (l : List String) (c : String)
    (h : scanSub needle l = some c) : c ∈ l ∧ strHasSub needle (pyLower c) = true := by
  rw [scanSub_eq_find?] at h
  exact ⟨List.mem_of_find?_eq_some h, by simpa using List.find?_some h⟩

theorem scanExact_eq_none (pref : String) (l : List String)
    (h : ∀ c ∈ l, pyLower c ≠ pref) : scanExact pref l = none := by
  rw [scanExact_eq_find?]
  rw [List.find?_eq_none]
  intro x hx
  simpa using h x hx

theorem scanSub_eq_none (needle : String) (l : List String)
    (h : ∀ c ∈ l, strHasSub needle (pyLower c) = false) : scanSub needle l = none := by
  rw [scanSub_eq_find?]
  rw [List.find?_eq_none]
  intro x hx
  simpa using h x hx

theorem scanExactList_mem (prefs : List String) (cs : List String) (c : String)
    (h : scanExactList prefs cs = some c) : c ∈ cs ∧ pyLower c ∈ prefs := by
  induction prefs with
  | nil => simp [scanExactList] at h
  | cons p ps ih =>
    simp only [scanExactList] at h
    cases h1 : scanExact p cs with
    | some d =>
      rw [h1] at h
      obtain ⟨hm, hl⟩ := scanExact_mem p cs d h1
      cases h
      exact ⟨hm, by simp [hl]⟩
    | none =>
      rw [h1] at h
      obtain ⟨hm, hl⟩ := ih h
      exact ⟨hm, by simp [hl]⟩

theorem scanExactList_eq_none (prefs : List String) (cs : List String)
    (h : ∀ c ∈ cs, pyLower c ∉ prefs) : scanExactList prefs cs = none := by
  induction prefs with
  | nil => rfl
  | cons p ps ih =>
    simp only [scanExactList]
    rw [scanExact_eq_none p cs (fun c hc => by
      intro he
      exact h c hc (by simp [he]))]
    exact ih (fun c hc hp => h c hc (by simp [hp]))

theorem scanExactList_none_forall (prefs : List String) (cs : List String)
    (h : scanExactList prefs cs = none) : ∀ c ∈ cs, pyLower c ∉ prefs := by
  induction prefs with
  | nil => intro c _ hc; simp at hc
  | cons p ps ih =>
    simp only [scanExactList] at h
    cases h1 : scanExact p cs with
    | some d => rw [h1] at h; exact absurd h (by simp)
    | none =>
      rw [h1] at h
      intro c hc hmem
      rw [scanExact_eq_find?, List.find?_eq_none] at h1
      rcases List.mem_cons.mp hmem with he | hm
      · exact absurd (by simp [he]) (h1 c hc)
      · exact ih h c hc hm

theorem scanSub_none_forall (needle : String) (cs : List String)
    (h : scanSub needle cs = none) :
    ∀ c ∈ cs, strHasSub needle (pyLower c) = false := by
  rw [scanSub_eq_find?, List.find?_eq_none] at h
  intro c hc
  simpa using h c hc

theorem formatCandidates_mem (fmts : List String) (c : String)
    (h : c ∈ formatCandidates fmts) : c ∈ fmts ∧ c ≠ "" := by
  simp only [formatCandidates] at h
  split at h
  · have := List.of_mem_filter h
    exact ⟨(List.mem_filter.mp h).1, by simpa using this⟩
  · have h2 : c ∈ fmts.filter (fun f => f ≠ "") := (List.mem_filter.mp h).1
    exact ⟨(List.mem_filter.mp h2).1, by simpa using List.of_mem_filter h2⟩

theorem formatCandidates_eq_nil_iff (fmts : List String) :
    formatCandidates fmts = [] ↔ ∀ f ∈ fmts, f = "" := by
  simp only [formatCandidates]
  split
  · next h =>
    rw [List.filter_eq_nil_iff]
    simp
  · next h =>
    have hne : (fmts.filter (fun f => f ≠ "")).filter (fun f => pyLower f ≠ "image/jpgpng") ≠ [] := by
      intro he
      rw [List.isEmpty_iff] at h
      exact h (by simpa using he)
    constructor
    · intro he; exact absurd (by simpa using he) hne
    · intro hall
      exfalso
      apply hne
      have hb : fmts.filter (fun f => f ≠ "") = [] := by
        rw [List.filter_eq_nil_iff]
        intro a ha
        simpa using hall a ha
      rw [hb]
      rfl

theorem preferFormat_eq_some_mem (fmts : List String) (c : String)
    (h : preferFormat fmts = some c) : c ∈ formatCandidates fmts := by
  simp only [preferFormat] at h
  split at h
  · exact absurd h (by simp)
  · cases h1 : scanExactList ["image/png", "image/png8", "image/png32"] (formatCandidates fmts) with
    | some d =>
      rw [h1] at h; cases h
      exact (scanExactList_mem _ _ _ h1).1
    | none =>
      rw [h1] at h
      cases h2 : scanSub "png" (formatCandidates fmts) with
      | some d =>
        rw [h2] at h; cases h
        exact (scanSub_mem _ _ _ h2).1
      | none =>
        rw [h2] at h
        cases h3 : scanExactList ["image/jpeg", "image/jpg"] (formatCandidates fmts) with
        | some d =>
          rw [h3] at h; cases h
          exact (scanExactList_mem _ _ _ h3).1
        | none =>
          rw [h3] at h
          have h4 : (formatCandidates fmts).head? = some c := h
          exact List.mem_of_mem_head? (by simp [h4])

/-- C3: the default WMTS matrix set is the first 3857-indicating set when
one exists (`List.find?` returns the first match, so position-independent
existence suffices), else the first 4326-indicating set, else the first
set in list order, and `none` exactly on the empty list; on the
specification's scenario it picks `GoogleMapsCompatible`. -/
theorem preferMatrixSet_claim (sets : List TmsLink) :
    (preferMatrixSet sets = none ↔ sets = []) ∧
    preferMatrixSet sets =
      (match sets.find? (fun s => is3857 s.crs) with
       | some s => some s.id
       | none =>
         match sets.find? (fun s => is4326 s.crs) with
         | some s => some s.id
         | none => sets.head?.map TmsLink.id) ∧
    preferMatrixSet
      [⟨"GoogleMapsCompatible", some "EPSG:3857"⟩,
       ⟨"EPSG4326", some "urn:ogc:def:crs:EPSG::4326"⟩] = some "GoogleMapsCompatible" := by
  refine ⟨?_, ?_, by decide⟩
  · cases sets with
    | nil => simp [preferMatrixSet]
    | cons s0 rest =>
      simp only [preferMatrixSet]
      constructor
      · intro h
        split at h
        · exact absurd h (by simp)
        · split at h <;> exact absurd h (by simp)
      · intro h; exact absurd h (by simp)
  · cases sets with
    | nil => simp [preferMatrixSet]
    | cons s0 rest =>
      simp only [preferMatrixSet, scanMatrixSets_eq_find?]
      cases h1 : (s0 :: rest).find? (fun s => is3857 s.crs) with
      | some s => simp
      | none =>
        cases h2 : (s0 :: rest).find? (fun s => is4326 s.crs) with
        | some s => simp
        | none => simp

/-- C4: the default WMTS format is chosen over the candidate list (the
non-empty formats with `image/jpgpng` filtered out, falling back to all
non-empty formats when the filter empties the list) by the tiers: exact
png/png8/png32 match, else a format containing "png", else exact
jpeg/jpg, else the first candidate; a list containing only
`image/jpgpng` yields that token (sole candidate after the fallback). -/
theorem preferFormat_claim (fmts : List String) :
    ((∃ c ∈ formatCandidates fmts, pyLower c ∈ ["image/png", "image/png8", "image/png32"]) →
       ∃ c ∈ formatCandidates fmts,
         pyLower c ∈ ["image/png", "image/png8", "image/png32"] ∧ preferFormat fmts = some c) ∧
    ((∀ c ∈ formatCandidates fmts, pyLower c ∉ ["image/png", "image/png8", "image/png32"]) →
     (∃ c ∈ formatCandidates fmts, strHasSub "png" (pyLower c) = true) →
       ∃ c ∈ formatCandidates fmts,
         strHasSub "png" (pyLower c) = true ∧ preferFormat fmts = some c) ∧
    ((∀ c ∈ formatCandidates fmts, strHasSub "png" (pyLower c) = false) →
     (∃ c ∈ formatCandidates fmts, pyLower c ∈ ["image/jpeg", "image/jpg"]) →
       ∃ c ∈ formatCandidates fmts,
         pyLower c ∈ ["image/jpeg", "image/jpg"] ∧ preferFormat fmts = some c) ∧
    ((∀ c ∈ formatCandidates fmts,
        strHasSub "png" (pyLower c) = false ∧ pyLower c ∉ ["image/jpeg", "image/jpg"]) →
       preferFormat fmts = (formatCandidates fmts).head?) ∧
    preferFormat ["image/jpgpng"] = some "image/jpgpng" := by
  have hne : ∀ c : String, c ∈ formatCandidates fmts → fmts.isEmpty = false := by
    intro c hc
    cases fmts with
    | nil => simp [formatCandidates] at hc
    | cons f fs => rfl
  refine ⟨?_, ?_, ?_, ?_, by decide⟩
  · rintro ⟨c, hc, hl⟩
    simp only [preferFormat, hne c hc, Bool.false_eq_true, if_false]
    cases h1 : scanExactList ["image/png", "image/png8", "image/png32"] (formatCandidates fmts) with
    | some d =>
      obtain ⟨hm, hp⟩ := scanExactList_mem _ _ _ h1
      exact ⟨d, hm, hp, rfl⟩
    | none =>
      exact absurd hl (scanExactList_none_forall _ _ h1 c hc)
  · rintro hall ⟨c, hc, hl⟩
    simp only [preferFormat, hne c hc, Bool.false_eq_true, if_false]
    rw [scanExactList_eq_none _ _ hall]
    cases h2 : scanSub "png" (formatCandidates fmts) with
    | some d =>
      obtain ⟨hm, hp⟩ := scanSub_mem _ _ _ h2
      exact ⟨d, hm, hp, rfl⟩
    | none =>
      exact absurd hl (by simp [scanSub_none_forall _ _ h2 c hc])
  · rintro hall ⟨c, hc, hl⟩
    have h1all : ∀ c ∈ formatCandidates fmts,
        pyLower c ∉ ["image/png", "image/png8", "image/png32"] := by
      intro x hx hmem
      have hs := hall x hx
      simp only [List.mem_cons, List.not_mem_nil, or_false] at hmem
      rcases hmem with he | he | he
      · rw [he] at hs; exact absurd hs (by decide)
      · rw [he] at hs; exact absurd hs (by decide)
      · rw [he] at hs; exact absurd hs (by decide)
    simp only [preferFormat, hne c hc, Bool.false_eq_true, if_false]
    rw [scanExactList_eq_none _ _ h1all, scanSub_eq_none _ _ hall]
    cases h3 : scanExactList ["image/jpeg", "image/jpg"] (formatCandidates fmts) with
    | some d =>
      obtain ⟨hm, hp⟩ := scanExactList_mem _ _ _ h3
      exact ⟨d, hm, hp, rfl⟩
    | none =>
      exact absurd hl (scanExactList_none_forall _ _ h3 c hc)
  · intro hall
    cases hf : fmts with
    | nil => simp [preferFormat, formatCandidates]
    | cons f fs =>
      subst hf
      have hsub : ∀ c ∈ formatCandidates (f :: fs), strHasSub "png" (pyLower c) = false :=
        fun c hc => (hall c hc).1
      have h1all : ∀ c ∈ formatCandidates (f :: fs),
          pyLower c ∉ ["image/png", "image/png8", "image/png32"] := by
        intro x hx hmem
        have hs := hsub x hx
        simp only [List.mem_cons, List.not_mem_nil, or_false] at hmem
        rcases hmem with he | he | he
        · rw [he] at hs; exact absurd hs (by decide)
        · rw [he] at hs; exact absurd hs (by decide)
        · rw [he] at hs; exact absurd hs (by decide)
      have hjall : ∀ c ∈ formatCandidates (f :: fs),
          pyLower c ∉ ["image/jpeg", "image/jpg"] :=
        fun c hc => (hall c hc).2
      simp only [preferFormat, List.isEmpty_cons, Bool.false_eq_true, if_false]
      rw [scanExactList_eq_none _ _ h1all, scanSub_eq_none _ _ hsub,
        scanExactList_eq_none _ _ hjall]

/-- C10 (implicit): when the WMTS format list has a non-empty element, the
default-format chooser returns one of the list's non-empty elements, and
it returns `none` exactly when every element of the list is empty (in
particular on the empty list). -/
theorem preferFormat_membership (fmts : List String) :
    ((∃ f ∈ fmts, f ≠ "") → ∃ f ∈ fmts, f ≠ "" ∧ preferFormat fmts = some f) ∧
    (preferFormat fmts = none ↔ ∀ f ∈ fmts, f = "") := by
  have hsome : (∃ f ∈ fmts, f ≠ "") → ∃ c, preferFormat fmts = some c := by
    rintro ⟨f, hf, hfe⟩
    have hcand : formatCandidates fmts ≠ [] := by
      intro hnil
      exact hfe ((formatCandidates_eq_nil_iff fmts).mp hnil f hf)
    have hfe2 : fmts.isEmpty = false := by
      cases fmts with
      | nil => simp at hf
      | cons a as => rfl
    simp only [preferFormat, hfe2, Bool.false_eq_true, if_false]
    cases h1 : scanExactList ["image/png", "image/png8", "image/png32"] (formatCandidates fmts) with
    | some d => exact ⟨d, rfl⟩
    | none =>
      cases h2 : scanSub "png" (formatCandidates fmts) with
      | some d => exact ⟨d, rfl⟩
      | none =>
        cases h3 : scanExactList ["image/jpeg", "image/jpg"] (formatCandidates fmts) with
        | some d => exact ⟨d, rfl⟩
        | none =>
          cases hc : formatCandidates fmts with
          | nil => exact absurd hc hcand
          | cons c cs => exact ⟨c, by simp⟩
  constructor
  · intro hex
    obtain ⟨c, hc⟩ := hsome hex
    obtain ⟨hm, hne⟩ := formatCandidates_mem fmts c (preferFormat_eq_some_mem fmts c hc)
    exact ⟨c, hm, hne, hc⟩
  · constructor
    · intro hnone f hf
      by_contra hfe
      obtain ⟨c, hc⟩ := hsome ⟨f, hf, hfe⟩
      rw [hnone] at hc
      exact absurd hc (by simp)
    · intro hall
      cases hf : fmts with
      | nil => rfl
      | cons f fs =>
        subst hf
        have hcand : formatCandidates (f :: fs) = [] :=
          (formatCandidates_eq_nil_iff _).mpr hall
        simp only [preferFormat, List.isEmpty_cons, Bool.false_eq_true, if_false, hcand]
        rfl

/-! ## ArcGIS REST layer resolution (`rest_utils._resolve_layer`) -/

/-- An ArcGIS REST `layers[]` entry as used by `_resolve_layer`: a numeric
id and an optional name (`service_info` is passed as its `layers` list;
the claims presuppose entries with present numeric ids, matching
`int(L.get("id"))` in the source). -/
structure RestLayer where
  id : Int
  name : Option String
deriving Repr, DecidableEq

/-- `for L in layers: if int(L.get("id")) == lid: return ...`. -/
def findLayerById (lid : Int) : List RestLayer → Option RestLayer
  | [] => none
  | L :: rest => if L.id == lid then some L else findLayerById lid rest

/-- `(L.get("name") or "").strip().lower()`. -/
def nameLower (L : RestLayer) : String := pyLower (pyStrip (L.name.getD ""))

/-- The case-insensitive exact-name loop of `_resolve_layer`. -/
def findLayerByExactName (needle : String) : List RestLayer → Option RestLayer
  | [] => none
  | L :: rest =>
    if nameLower L == needle then some L else findLayerByExactName needle rest

/-- Python list membership `x in l` for strings. -/
def listHas (a : String) : List String → Bool
  | [] => false
  | b :: rest => b == a || listHas a rest

/-- The case-insensitive substring-name loop of `_resolve_layer`
(`if needle and needle in ...`). -/
def findLayerBySubName (needle : String) : List RestLayer → Option RestLayer
  | [] => none
  | L :: rest =>
    if !(needle == "") && strHasSub needle (nameLower L) then some L
    else findLayerBySubName needle rest

/-- `rest_utils._resolve_layer`: resolve a layer identifier (numeric id
string, else name: exact case-insensitive first, then case-insensitive
substring) against the advertised layer list.  Errors are modelled as
`Except.error` with the exact `ValueError` message text. -/
def resolveLayer (layers : List RestLayer) (ident : String) :
    Except String (Int × Option String) :=
  if layers.isEmpty then .error "Service does not advertise any 'layers'."
  else if pyIsDigit ident then
    match findLayerById (digitsToNat ident : Int) layers with
    | some L => .ok ((digitsToNat ident : Int), L.name)
    | none => .error ("Layer id '" ++ ident ++ "' not found.")
  else
    let needle := pyLower (pyStrip ident)
    match findLayerByExactName needle layers with
    | some L => .ok (L.id, L.name)
    | none =>
      match findLayerBySubName needle layers with
      | some L => .ok (L.id, L.name)
      | none => .error ("Layer '" ++ ident ++ "' not found by name.")

theorem findLayerById_eq_find? (lid : Int) (l : List RestLayer) :
    findLayerById lid l = l.find? (fun L => L.id == lid) := by
  induction l with
  | nil => rfl
  | cons L rest ih =>
    by_cases h : L.id == lid
    · simp [findLayerById, List.find?, h]
    · simp only [findLayerById, List.find?, h] at *
      simpa [h] using ih

theorem findLayerByExactName_eq_find? (needle : String) (l : List RestLayer) :
    findLayerByExactName needle l = l.find? (fun L => nameLower L == needle) := by
  induction l with
  | nil => rfl
  | cons L rest ih =>
    by_cases h : nameLower L == needle
    · simp [findLayerByExactName, List.find?, h]
    · simp only [findLayerByExactName, List.find?, h] at *
      simpa [h] using ih

theorem findLayerBySubName_eq_find? (needle : String) (l : List RestLayer) :
    findLayerBySubName needle l =
      l.find? (fun L => !(needle == "") && strHasSub needle (nameLower L)) := by
  induction l with
  | nil => rfl
  | cons L rest ih =>
    by_cases h : (!(needle == "") && strHasSub needle (nameLower L)) = true
    · simp [findLayerBySubName, List.find?, h]
    · simp only [findLayerBySubName, List.find?, h] at *
      simpa [h] using ih

/-- C5: on a non-empty layer list, a numeric identifier resolves to the
first layer whose id equals it exactly (error naming the identifier when
none does); a non-numeric identifier resolves to the first
case-insensitive exact name match, only falling back to the first
case-insensitive substring match when no exact match exists, and errors
naming the identifier when neither exists.  (`List.find?` returns the
first match of each loop.) -/
theorem resolveLayer_claim (layers : List RestLayer) (ident : String)
    (hne : layers ≠ []) :
    (pyIsDigit ident = true →
       resolveLayer layers ident =
         match layers.find? (fun L => L.id == (digitsToNat ident : Int)) with
         | some L => .ok ((digitsToNat ident : Int), L.name)
         | none => .error ("Layer id '" ++ ident ++ "' not found.")) ∧
    (pyIsDigit ident = false →
       resolveLayer layers ident =
         match layers.find? (fun L => nameLower L == pyLower (pyStrip ident)) with
         | some L => .ok (L.id, L.name)
         | none =>
           match layers.find?
               (fun L => !(pyLower (pyStrip ident) == "") &&
                 strHasSub (pyLower (pyStrip ident)) (nameLower L)) with
           | some L => .ok (L.id, L.name)
           | none => .error ("Layer '" ++ ident ++ "' not found by name.")) := by
  have hemp : layers.isEmpty = false := by
    cases layers with
    | nil => exact absurd rfl hne
    | cons L rest => rfl
  constructor
  · intro hd
    simp only [resolveLayer, hemp, Bool.false_eq_true, if_false, hd, if_true,
      findLayerById_eq_find?]
  · intro hd
    simp only [resolveLayer, hemp, Bool.false_eq_true, if_false, hd,
      findLayerByExactName_eq_find?, findLayerBySubName_eq_find?]

/-- Witness for C5 at the specification's scenarios: `"Roads"` resolves
against a sole layer `"Main Roads"` through the substring path, and
`"roads"` resolves against a layer named `"Roads"` through the
case-insensitive exact path. -/
theorem resolveLayer_claim_witness :
    resolveLayer [⟨0, some "Main Roads"⟩] "Roads" = .ok (0, some "Main Roads") ∧
    resolveLayer [⟨3, some "Roads"⟩] "roads" = .ok (3, some "Roads") := by
  constructor
  · exact ((resolveLayer_claim [⟨0, some "Main Roads"⟩] "Roads" (by simp)).2
      (by decide)).trans rfl
  · exact ((resolveLayer_claim [⟨3, some "Roads"⟩] "roads" (by simp)).2
      (by decide)).trans rfl

/-! ## ArcGIS MapServer format selection (`rest_utils`) -/

/-- `rest_utils._parse_supported_formats`: split
`supportedImageFormatTypes` on commas into stripped lowercase tokens,
dropping blank tokens. -/
def parseSupportedFormats (fmtStr : String) : List String :=
  (splitOnSep ',' fmtStr.data).filterMap (fun t =>
    let ts := pyStrip (String.mk t)
    if ts ≠ "" then some (pyLower ts) else none)

/-- The preference order used by `_prefer_arcgis_format`. -/
def arcgisPrefs : List String := ["png32", "png24", "png8", "png", "jpg", "jpeg"]

/-- `for p in prefs: if p in available: return p`. -/
def scanPrefs : List String → List String → Option String
  | [], _ => none
  | p :: ps, avail => if listHas p avail then some p else scanPrefs ps avail

/-- `rest_utils._prefer_arcgis_format`: the requested format (stripped,
lowercased) when advertised; else the first of
png32/png24/png8/png/jpg/jpeg advertised; else the first advertised
token; else the literal "png32".  A `None`/empty request is skipped
(Python truthiness). -/
def preferArcgisFormat (requested : Option String) (available : List String) : String :=
  let fallback :=
    match scanPrefs arcgisPrefs available with
    | some p => p
    | none =>
      match available with
      | [] => "png32"
      | a :: _ => a
  match requested with
  | none => fallback
  | some r =>
    if r ≠ "" then
      let rl := pyLower (pyStrip r)
      if listHas rl available then rl else fallback
    else fallback

theorem listHas_iff_mem (a : String) (l : List String) : listHas a l = true ↔ a ∈ l := by
  induction l with
  | nil => simp [listHas]
  | cons b rest ih =>
    simp only [listHas, Bool.or_eq_true, beq_iff_eq, ih, List.mem_cons]
    exact or_congr eq_comm Iff.rfl

theorem scanPrefs_eq_find? (prefs avail : List String) :
    scanPrefs prefs avail = prefs.find? (fun p => listHas p avail) := by
  induction prefs with
  | nil => rfl
  | cons p ps ih =>
    by_cases h : listHas p avail
    · simp [scanPrefs, List.find?, h]
    · simp only [scanPrefs, List.find?, h] at *
      simpa [h] using ih

/-- C6: format selection returns the requested format (normalised) when
it is advertised; otherwise the first of png32/png24/png8/png/jpg/jpeg
present in the advertised list, else the first advertised token, else
the literal "png32"; in particular `supportedImageFormatTypes =
"PNG32, PNG24, JPG"` with no request yields "png32". -/
theorem preferArcgisFormat_claim (requested : Option String) (available : List String) :
    (∀ r, requested = some r → r ≠ "" → pyLower (pyStrip r) ∈ available →
       preferArcgisFormat requested available = pyLower (pyStrip r)) ∧
    ((requested = none ∨ requested = some "" ∨
        ∃ r, requested = some r ∧ pyLower (pyStrip r) ∉ available) →
       preferArcgisFormat requested available =
         match arcgisPrefs.find? (fun p => listHas p available) with
         | some p => p
         | none =>
           match available with
           | [] => "png32"
           | a :: _ => a) ∧
    preferArcgisFormat none (parseSupportedFormats "PNG32, PNG24, JPG") = "png32" := by
  refine ⟨?_, ?_, by decide⟩
  · rintro r rfl hr hmem
    simp only [preferArcgisFormat, hr, ne_eq, not_false_iff, if_true]
    rw [if_pos ((listHas_iff_mem _ _).mpr hmem)]
  · intro hcase
    rcases hcase with rfl | rfl | ⟨r, rfl, hnm⟩
    · simp only [preferArcgisFormat, scanPrefs_eq_find?]
    · simp only [preferArcgisFormat, scanPrefs_eq_find?, ne_eq,
        not_true_eq_false, if_false]
    · simp only [preferArcgisFormat, scanPrefs_eq_find?]
      by_cases hr : r = ""
      · simp [hr]
      · simp only [ne_eq, hr, not_false_iff, if_true]
        rw [if_neg (fun hc => hnm ((listHas_iff_mem _ _).mp hc))]

/-- Witness for C6: a non-empty requested format that is advertised is
returned as-is. -/
theorem preferArcgisFormat_claim_witness :
    preferArcgisFormat (some "png") ["png"] = "png" := by
  exact (preferArcgisFormat_claim (some "png") ["png"]).1 "png" rfl (by decide) (by decide)

/-! ## WMS capability layer parsing (`wms_utils._parse_layers_from_caps`) -/

/-- A `Layer` element of a WMS capabilities document, as consumed by
`_parse_layers_from_caps`: the text of its `Name` and `Title` children
(`none` when the child element is absent, `some ""` when present but
empty), the texts of its `CRS` elements followed by those of its `SRS`
elements, and its child `Layer` elements in document order. -/
inductive LayerNode where
  | node (nameText titleText : Option String) (crsTexts : List String)
      (children : List LayerNode)

/-- One parsed WMS layer: `{name: ..., title: ..., crs_list: [...]}`. -/
structure WmsEntry where
  name : String
  title : String
  crs_list : List String
deriving Repr, DecidableEq

/-- `normalize_crs_tokens` from `_parse_layers_from_caps`: replace commas
by spaces, split on whitespace, strip each chunk. -/
def normalizeCrsTokens (text : String) : List String :=
  if text = "" then [] else (pySplitWs (charReplace ',' ' ' text)).map pyStrip

/-- The per-token CRS normalisation performed at a named layer: a token
starting with `EPSG:` (case-insensitively) is kept uppercased; a token
merely containing "EPSG" is reduced to `EPSG:` plus its last all-digit
colon-separated part (after collapsing `::`), or dropped when no such
part exists; every other token is dropped. -/
def normCrsToken (crs : String) : Option String :=
  if crs = "" then none
  else
    let cs := pyStrip crs
    let up := pyUpper cs
    if strLeadsWith "EPSG:" up then some up
    else if strHasSub "EPSG" up then
      (((splitOnSep ':' (collapseDoubleColons cs.data)).map String.mk).reverse.find?
        pyIsDigit).map (fun t => "EPSG:" ++ t)
    else none

/-- The title stored for a named layer: the stripped `Title` text when the
`Title` element exists with non-empty text, else the stripped name. -/
def entryTitle (titleText : Option String) (nameText : String) : String :=
  match titleText with
  | some t => if t ≠ "" then pyStrip t else pyStrip nameText
  | none => pyStrip nameText

mutual
/-- `walk_layers` from `_parse_layers_from_caps`: emit an entry for this
layer when its `Name` text strips to something non-empty (with the
combined raw CRS/SRS tokens normalised, deduplicated and sorted), then
recurse into the child layers passing the combined raw token list down. -/
def walkLayers : LayerNode → List String → List WmsEntry
  | .node nameText titleText crsTexts children, inherited =>
    let own := crsTexts.flatMap normalizeCrsTokens
    let combined := inherited ++ own
    (match nameText with
     | some nm =>
       if pyStrip nm ≠ "" then
         [⟨pyStrip nm, entryTitle titleText nm,
           sortedDedup (combined.filterMap normCrsToken)⟩]
       else []
     | none => []) ++ walkLayersList children combined

/-- The `for child in _findall_any(elem, "Layer")` recursion. -/
def walkLayersList : List LayerNode → List String → List WmsEntry
  | [], _ => []
  | c :: cs, inherited => walkLayers c inherited ++ walkLayersList cs inherited
end

/-- The `seen`/`uniq` loop of `_parse_layers_from_caps`: keep only the
first entry for each layer name. -/
def dedupByNameAux (seen : List String) : List WmsEntry → List WmsEntry
  | [] => []
  | d :: rest =>
    if listHas d.name seen then dedupByNameAux seen rest
    else d :: dedupByNameAux (d.name :: seen) rest

/-- `wms_utils._parse_layers_from_caps`, starting from the located root
`Layer` element (`none` models a document with no `Layer` at all, for
which the source returns `[]`). -/
def parseLayersFromCaps (rootLayer : Option LayerNode) : List WmsEntry :=
  match rootLayer with
  | none => []
  | some t => dedupByNameAux [] (walkLayers t [])

mutual
/-- Specification-side walk, phrased as the claim is: each layer with a
non-empty `Name` is listed with `crs_list` equal to the ancestors'
already-normalised codes united with the layer's own normalised codes,
deduplicated and sorted; unnamed layers are traversed (their codes are
passed down) but never listed. -/
def specLayers : LayerNode → List String → List WmsEntry
  | .node nameText titleText crsTexts children, ancestorCodes =>
    let ownCodes := (crsTexts.flatMap normalizeCrsTokens).filterMap normCrsToken
    let allCodes := ancestorCodes ++ ownCodes
    (match nameText with
     | some nm =>
       if pyStrip nm ≠ "" then
         [⟨pyStrip nm, entryTitle titleText nm, sortedDedup allCodes⟩]
       else []
     | none => []) ++ specLayersList children allCodes

/-- Child recursion of `specLayers`. -/
def specLayersList : List LayerNode → List String → List WmsEntry
  | [], _ => []
  | c :: cs, anc => specLayers c anc ++ specLayersList cs anc
end

mutual
theorem walkLayers_eq_spec (n : LayerNode) (inherited : List String) :
    walkLayers n inherited = specLayers n (inherited.filterMap normCrsToken) := by
  cases n with
  | node nameText titleText crsTexts children =>
    simp only [walkLayers, specLayers,
      walkLayersList_eq_spec children (inherited ++ crsTexts.flatMap normalizeCrsTokens),
      List.filterMap_append]

theorem walkLayersList_eq_spec (l : List LayerNode) (inherited : List String) :
    walkLayersList l inherited = specLayersList l (inherited.filterMap normCrsToken) := by
  cases l with
  | nil => rfl
  | cons c cs =>
    simp only [walkLayersList, specLayersList, walkLayers_eq_spec c inherited,
      walkLayersList_eq_spec cs inherited]
end

mutual
theorem walkLayers_name_ne (n : LayerNode) (inherited : List String) :
    ∀ e ∈ walkLayers n inherited, e.name ≠ "" := by
  cases n with
  | node nameText titleText crsTexts children =>
    intro e he
    simp only [walkLayers, List.mem_append] at he
    rcases he with hself | hrec
    · split at hself
      · next nm =>
        split at hself
        · next h =>
          simp only [List.mem_singleton] at hself
          rw [hself]
          exact h
        · simp at hself
      · simp at hself
    · exact walkLayersList_name_ne children _ e hrec

theorem walkLayersList_name_ne (l : List LayerNode) (inherited : List String) :
    ∀ e ∈ walkLayersList l inherited, e.name ≠ "" := by
  cases l with
  | nil => intro e he; simp [walkLayersList] at he
  | cons c cs =>
    intro e he
    simp only [walkLayersList, List.mem_append] at he
    rcases he with h | h
    · exact walkLayers_name_ne c _ e h
    · exact walkLayersList_name_ne cs _ e h
end

theorem listHas_cons_eq_false (a b : String) (l : List String) :
    listHas a (b :: l) = false ↔ ¬b = a ∧ listHas a l = false := by
  simp [listHas]

theorem dedupByNameAux_mem (l : List WmsEntry) (e : WmsEntry) :
    ∀ seen : List String,
      (e ∈ dedupByNameAux seen l ↔
        (listHas e.name seen = false ∧ l.find? (fun d => d.name == e.name) = some e)) := by
  induction l with
  | nil => intro seen; simp [dedupByNameAux]
  | cons d rest ih =>
    intro seen
    by_cases hs : listHas d.name seen
    · rw [dedupByNameAux, if_pos hs]
      by_cases hn : d.name = e.name
      · constructor
        · intro hmem
          obtain ⟨h1, _⟩ := (ih seen).mp hmem
          rw [← hn] at h1
          rw [hs] at h1
          exact absurd h1 (by simp)
        · rintro ⟨h1, _⟩
          rw [← hn, hs] at h1
          exact absurd h1 (by simp)
      · rw [ih seen, List.find?]
        have : (d.name == e.name) = false := by simpa using hn
        rw [this]
    · rw [dedupByNameAux, if_neg hs]
      by_cases hd : e = d
      · subst hd
        simp only [List.mem_cons, true_or, true_iff]
        refine ⟨by simpa using hs, ?_⟩
        rw [List.find?]
        simp
      · simp only [List.mem_cons, hd, false_or]
        rw [ih (d.name :: seen)]
        by_cases hn : d.name = e.name
        · constructor
          · rintro ⟨h1, _⟩
            obtain ⟨hne, _⟩ := (listHas_cons_eq_false _ _ _).mp h1
            exact absurd hn hne
          · rintro ⟨h1, h2⟩
            rw [List.find?] at h2
            have hb : (d.name == e.name) = true := by simpa using hn
            rw [hb] at h2
            simp only [Option.some.injEq] at h2
            exact absurd h2.symm hd
        · have hb : (d.name == e.name) = false := by simpa using hn
          constructor
          · rintro ⟨h1, h2⟩
            obtain ⟨_, h1'⟩ := (listHas_cons_eq_false _ _ _).mp h1
            refine ⟨h1', ?_⟩
            rw [List.find?, hb]
            exact h2
          · rintro ⟨h1, h2⟩
            rw [List.find?, hb] at h2
            exact ⟨(listHas_cons_eq_false _ _ _).mpr ⟨hn, h1⟩, h2⟩

/-- C1: parsing a WMS capability layer tree with nested CRS/SRS
declarations produces, for each layer with non-empty `Name`, the union of
its ancestors' and its own normalised `EPSG:` codes, deduplicated and
sorted (`specLayers` states this shape; first conjunct); listed layers
always have a non-empty name (unnamed containers are only traversed);
an entry is listed iff it is the first `walk_layers` entry bearing its
name; and the specification's scenario (`Ortho2023`, ancestor
`EPSG:4326`, own `EPSG:3857 EPSG:25832`) yields exactly
`["EPSG:25832", "EPSG:3857", "EPSG:4326"]`. -/
theorem parse_layers_from_caps_claim (t : LayerNode) :
    parseLayersFromCaps (some t) = dedupByNameAux [] (specLayers t []) ∧
    (∀ e ∈ parseLayersFromCaps (some t), e.name ≠ "") ∧
    (∀ e : WmsEntry, e ∈ parseLayersFromCaps (some t) ↔
       (walkLayers t []).find? (fun d => d.name == e.name) = some e) ∧
    parseLayersFromCaps (some (.node none none ["EPSG:4326"]
        [.node (some "Ortho2023") none ["EPSG:3857 EPSG:25832"] []])) =
      [⟨"Ortho2023", "Ortho2023", ["EPSG:25832", "EPSG:3857", "EPSG:4326"]⟩] := by
  refine ⟨?_, ?_, ?_, ?_⟩
  · show dedupByNameAux [] (walkLayers t []) = dedupByNameAux [] (specLayers t [])
    rw [show specLayers t [] = specLayers t (List.filterMap normCrsToken []) from rfl,
      ← walkLayers_eq_spec]
  · intro e he
    have hmem := ((dedupByNameAux_mem (walkLayers t []) e []).mp he).2
    exact walkLayers_name_ne t [] e (List.mem_of_find?_eq_some hmem)
  · intro e
    rw [show parseLayersFromCaps (some t) = dedupByNameAux [] (walkLayers t []) from rfl,
      dedupByNameAux_mem (walkLayers t []) e []]
    simp [listHas]
  · rfl

/-! ## URL query machinery (`urllib.parse` as used by `_normalize_service_base`) -/

/-- Uppercase hex digit for `n < 16` (Python `quote` uses uppercase). -/
def hexDigitChar (n : Nat) : Char :=
  if n < 10 then Char.ofNat (48 + n) else Char.ofNat (55 + n)

/-- Value of a hex digit character (both cases), `none` otherwise. -/
def hexDigitVal (c : Char) : Option Nat :=
  if 48 ≤ c.toNat && c.toNat ≤ 57 then some (c.toNat - 48)
  else if 65 ≤ c.toNat && c.toNat ≤ 70 then some (c.toNat - 55)
  else if 97 ≤ c.toNat && c.toNat ≤ 102 then some (c.toNat - 87)
  else none

/-- The characters `urllib.parse.quote` never escapes
(letters, digits, `_.-~`). -/
def alwaysSafeChar (c : Char) : Bool :=
  (97 ≤ c.toNat && c.toNat ≤ 122) || (65 ≤ c.toNat && c.toNat ≤ 90) ||
    (48 ≤ c.toNat && c.toNat ≤ 57) || c == '_' || c == '.' || c == '-' || c == '~'

/-- Percent-escape of one byte, uppercase hex. -/
def pctEncodeByte (b : Nat) : List Char :=
  ['%', hexDigitChar (b / 16), hexDigitChar (b % 16)]

/-- `urllib.parse.quote_plus` on one character: safe characters kept,
space becomes `+`, anything else percent-escaped.  Non-ASCII code points
are escaped bytewise (Python escapes their UTF-8 bytes; the two agree on
ASCII, the range of real-world query strings). -/
def quotePlusChar (c : Char) : List Char :=
  if c == ' ' then ['+']
  else if alwaysSafeChar c then [c]
  else pctEncodeByte (c.toNat % 256)

/-- `urllib.parse.quote_plus`. -/
def quotePlus (s : List Char) : List Char := s.flatMap quotePlusChar

/-- `urllib.parse.unquote_plus`: `+` to space, `%XY` escapes decoded to
the byte's code point (Python additionally UTF-8-decodes maximal escape
runs; the two agree on ASCII escapes), invalid escapes kept literally. -/
def unquotePlus : List Char → List Char
  | [] => []
  | '%' :: a :: b :: rest =>
    (match hexDigitVal a, hexDigitVal b with
     | some x, some y => Char.ofNat (16 * x + y) :: unquotePlus rest
     | _, _ => '%' :: unquotePlus (a :: b :: rest))
  | '+' :: rest => ' ' :: unquotePlus rest
  | c :: rest => c :: unquotePlus rest

/-- Split at the first occurrence of `sep` (`none` when absent). -/
def splitFirstChar (sep : Char) : List Char → Option (List Char × List Char)
  | [] => none
  | c :: rest =>
    if c == sep then some ([], rest)
    else
      match splitFirstChar sep rest with
      | none => none
      | some (a, b) => some (c :: a, b)

/-- `urllib.parse.parse_qsl(qs, keep_blank_values=True)`: split on `&`,
skip empty fields, split each field at its first `=` (a field without
`=` gets an empty value), percent/plus-decode names and values. -/
def parseQsl (qs : List Char) : List (List Char × List Char) :=
  (splitOnSep '&' qs).filterMap (fun field =>
    if field.isEmpty then none
    else
      match splitFirstChar '=' field with
      | some (n, v) => some (unquotePlus n, unquotePlus v)
      | none => some (unquotePlus field, []))

/-- One `dict.__setitem__`: replace the value in place when the key
exists (keeping its position), else append at the end. -/
def dictInsert (k v : List Char) :
    List (List Char × List Char) → List (List Char × List Char)
  | [] => [(k, v)]
  | (k0, v0) :: rest =>
    if k0 == k then (k0, v) :: rest else (k0, v0) :: dictInsert k v rest

/-- `dict(pairs)` accumulator: insertion-ordered, last value wins. -/
def toDictAux (acc : List (List Char × List Char)) :
    List (List Char × List Char) → List (List Char × List Char)
  | [] => acc
  | (k, v) :: rest => toDictAux (dictInsert k v acc) rest

/-- Python `dict(pairs)` as an insertion-ordered association list. -/
def toDict (l : List (List Char × List Char)) : List (List Char × List Char) :=
  toDictAux [] l

/-- Is the decoded key, lowercased, one of SERVICE/REQUEST/VERSION? -/
def droppedKey (k : List Char) : Bool :=
  let kl := k.map pyLowerChar
  kl == "service".data || kl == "request".data || kl == "version".data

/-- The `for k in list(q.keys()): if k.lower() in {...}: q.pop(k, None)`
loop (pop keeps the order of the remaining keys). -/
def dropCapsKeys (q : List (List Char × List Char)) : List (List Char × List Char) :=
  q.filter (fun kv => !droppedKey kv.1)

/-- Join with a separator character. -/
def intercalateChar (sep : Char) : List (List Char) → List Char
  | [] => []
  | [x] => x
  | x :: y :: xs => x ++ sep :: intercalateChar sep (y :: xs)

/-- `urllib.parse.urlencode(q, doseq=True)` on string-valued pairs:
`quote_plus(k)=quote_plus(v)` joined with `&`. -/
def urlencodePairs (q : List (List Char × List Char)) : List Char :=
  intercalateChar '&' (q.map (fun kv => quotePlus kv.1 ++ '=' :: quotePlus kv.2))

/-- The full query rewrite performed by `_normalize_service_base`. -/
def normalizeQuery (qs : List Char) : List Char :=
  urlencodePairs (dropCapsKeys (toDict (parseQsl qs)))

/-! ## `urlsplit` / `urlunsplit` -/

/-- The five components returned by `urllib.parse.urlsplit`. -/
structure SplitUrl where
  scheme : String
  netloc : String
  path : String
  query : String
  fragment : String
deriving Repr, DecidableEq

/-- `urllib.parse.scheme_chars`. -/
def isSchemeChar (c : Char) : Bool :=
  (97 ≤ c.toNat && c.toNat ≤ 122) || (65 ≤ c.toNat && c.toNat ≤ 90) ||
    (48 ≤ c.toNat && c.toNat ≤ 57) || c == '+' || c == '-' || c == '.'

/-- ASCII letter test (`url[0].isascii() and url[0].isalpha()`). -/
def isAsciiAlpha (c : Char) : Bool :=
  (97 ≤ c.toNat && c.toNat ≤ 122) || (65 ≤ c.toNat && c.toNat ≤ 90)

/-- Scheme detection of `urlsplit`: the part before the first `:`, when
non-empty, starting with an ASCII letter and made of scheme characters,
is the scheme (lowercased); otherwise there is no scheme. -/
def splitScheme (l : List Char) : List Char × List Char :=
  match splitFirstChar ':' l with
  | none => ([], l)
  | some (before, after) =>
    match before with
    | [] => ([], l)
    | c0 :: cs =>
      if isAsciiAlpha c0 && cs.all isSchemeChar then
        (List.map pyLowerChar (c0 :: cs), after)
      else ([], l)

/-- A character that does not end the netloc (`_splitnetloc` stops at
`/`, `?` or `#`). -/
def notNetlocEnd (c : Char) : Bool := !(c == '/' || c == '?' || c == '#')

/-- Netloc detection: after `//`, the netloc extends to the first
`/`, `?` or `#`. -/
def splitNetloc (l : List Char) : List Char × List Char :=
  match l with
  | '/' :: '/' :: rest => (rest.takeWhile notNetlocEnd, rest.dropWhile notNetlocEnd)
  | _ => ([], l)

/-- Split at the first occurrence of `sep`, keeping everything when it
is absent. -/
def splitAtFirst (sep : Char) (l : List Char) : List Char × List Char :=
  match splitFirstChar sep l with
  | none => (l, [])
  | some (a, b) => (a, b)

/-- The tab/CR/LF removal predicate of `urlsplit`
(`_UNSAFE_URL_BYTES_TO_REMOVE`). -/
def notCtl (c : Char) : Bool := !(c == '\t' || c == '\r' || c == '\n')

/-- The WHATWG hardening of `urlsplit`: strip leading C0-control/space
characters, remove tab/CR/LF anywhere. -/
def sanitizeUrl (l : List Char) : List Char :=
  (l.dropWhile (fun c => c.toNat ≤ 32)).filter notCtl

/-- `urllib.parse.urlsplit` (CPython ≥ 3.6 with the WHATWG hardening):
sanitize, detect the scheme (lowercased) and the `//netloc`, then split
off the fragment at the first `#` and the query at the first `?`.  (The
IPv6 bracket `ValueError` is outside the modelled scope.) -/
def urlsplit (url : String) : SplitUrl :=
  let u0 := sanitizeUrl url.data
  let su := splitScheme u0
  let nu := splitNetloc su.2
  let fu := splitAtFirst '#' nu.2
  let qu := splitAtFirst '?' fu.1
  ⟨String.mk su.1, String.mk nu.1, String.mk qu.1, String.mk qu.2, String.mk fu.2⟩

/-- `'//'` test used by `urlunsplit`. -/
def isSlashSlash : List Char → Bool
  | '/' :: '/' :: _ => true
  | _ => false

/-- `urllib.parse.urlunsplit`. -/
def urlunsplit (p : SplitUrl) : String :=
  let u0 := p.path.data
  let u1 :=
    if p.netloc.data ≠ [] || isSlashSlash u0 then
      '/' :: '/' :: (p.netloc.data ++
        (match u0 with
         | [] => []
         | c :: _ => if c == '/' then u0 else '/' :: u0))
    else u0
  let u2 := if p.scheme.data ≠ [] then p.scheme.data ++ ':' :: u1 else u1
  let u3 := if p.query.data ≠ [] then u2 ++ '?' :: p.query.data else u2
  let u4 := if p.fragment.data ≠ [] then u3 ++ '#' :: p.fragment.data else u3
  String.mk u4

/-- `_normalize_service_base` (textually identical in `wms_utils` and
`wmts_utils` except that the WMTS copy short-circuits the empty string,
on which this generic path also returns `""`): split the URL, rebuild
the query through `dict(parse_qsl(...))` with SERVICE/REQUEST/VERSION
keys popped case-insensitively and `urlencode`, and reassemble. -/
def normalizeServiceBase (url : String) : String :=
  let p := urlsplit url
  urlunsplit { p with query := String.mk (normalizeQuery p.query.data) }

/-! ### Properties of the query codec -/

theorem hexDigitVal_hexDigitChar : ∀ k, k < 16 → hexDigitVal (hexDigitChar k) = some k := by
  decide

/-- Character class of every character `quotePlus` can emit. -/
def qGood (c : Char) : Bool := alwaysSafeChar c || c == '+' || c == '%'

theorem qGood_toNat (d : Char) (h : qGood d = true) :
    32 < d.toNat ∧ d.toNat ≠ 38 ∧ d.toNat ≠ 61 ∧ d.toNat ≠ 35 ∧ d.toNat ≠ 63 := by
  simp only [qGood, alwaysSafeChar, Bool.or_eq_true, Bool.and_eq_true,
    decide_eq_true_eq, beq_iff_eq] at h
  rcases h with (((((((h | h) | h) | rfl) | rfl) | rfl) | rfl) | rfl) | rfl
  · omega
  · omega
  · omega
  all_goals decide

theorem beq_false_of_toNat_ne (d e : Char) (h : d.toNat ≠ e.toNat) : (d == e) = false := by
  simp only [beq_eq_false_iff_ne, ne_eq]
  intro he
  exact h (congrArg Char.toNat he)

theorem alwaysSafe_not_plus_pct (c : Char) (h : alwaysSafeChar c = true) :
    (c == '+') = false ∧ (c == '%') = false := by
  simp only [alwaysSafeChar, Bool.or_eq_true, Bool.and_eq_true,
    decide_eq_true_eq, beq_iff_eq] at h
  constructor
  · apply beq_false_of_toNat_ne
    show c.toNat ≠ 43
    rcases h with ((((((h | h) | h) | rfl) | rfl) | rfl) | rfl)
    · omega
    · omega
    · omega
    all_goals decide
  · apply beq_false_of_toNat_ne
    show c.toNat ≠ 37
    rcases h with ((((((h | h) | h) | rfl) | rfl) | rfl) | rfl)
    · omega
    · omega
    · omega
    all_goals decide

theorem quotePlusChar_good (c : Char) : ∀ d ∈ quotePlusChar c, qGood d = true := by
  intro d hd
  unfold quotePlusChar at hd
  split at hd
  · simp only [List.mem_singleton] at hd
    subst hd
    decide
  · split at hd
    · next hsafe =>
      simp only [List.mem_singleton] at hd
      subst hd
      simp [qGood, hsafe]
    · simp only [pctEncodeByte, List.mem_cons, List.not_mem_nil, or_false] at hd
      have hlt : c.toNat % 256 < 256 := Nat.mod_lt _ (by omega)
      have hgood : ∀ k, k < 16 → qGood (hexDigitChar k) = true := by decide
      rcases hd with rfl | rfl | rfl
      · decide
      · exact hgood _ (by omega)
      · exact hgood _ (by omega)

theorem quotePlus_good (s : List Char) : ∀ d ∈ quotePlus s, qGood d = true := by
  intro d hd
  simp only [quotePlus, List.mem_flatMap] at hd
  obtain ⟨c, _, hc⟩ := hd
  exact quotePlusChar_good c d hc

theorem unquotePlus_cons_other (c : Char) (rest : List Char)
    (h1 : (c == '+') = false) (h2 : (c == '%') = false) :
    unquotePlus (c :: rest) = c :: unquotePlus rest := by
  have hc1 : c ≠ '+' := by simpa using h1
  have hc2 : c ≠ '%' := by simpa using h2
  rw [unquotePlus.eq_def]
  split <;> simp_all

theorem unquotePlus_pct (a b : Char) (x y : Nat) (rest : List Char)
    (ha : hexDigitVal a = some x) (hb : hexDigitVal b = some y) :
    unquotePlus ('%' :: a :: b :: rest) = Char.ofNat (16 * x + y) :: unquotePlus rest := by
  simp [unquotePlus, ha, hb]

theorem unquotePlus_quotePlusChar (c : Char) (rest : List Char) (h : c.toNat < 256) :
    unquotePlus (quotePlusChar c ++ rest) = c :: unquotePlus rest := by
  by_cases hsp : (c == ' ') = true
  · have hc : c = ' ' := by simpa using hsp
    subst hc
    simp [quotePlusChar, unquotePlus]
  · by_cases hsafe : alwaysSafeChar c = true
    · have e1 : quotePlusChar c = [c] := by
        simp [quotePlusChar, hsp, hsafe]
      rw [e1, List.singleton_append]
      obtain ⟨hp, hpc⟩ := alwaysSafe_not_plus_pct c hsafe
      exact unquotePlus_cons_other c rest hp hpc
    · have e1 : quotePlusChar c = pctEncodeByte (c.toNat % 256) := by
        simp only [quotePlusChar, hsp, Bool.false_eq_true, if_false, hsafe]
      have hb : c.toNat % 256 = c.toNat := Nat.mod_eq_of_lt h
      rw [e1, hb]
      have hv1 : hexDigitVal (hexDigitChar (c.toNat / 16)) = some (c.toNat / 16) :=
        hexDigitVal_hexDigitChar _ (by omega)
      have hv2 : hexDigitVal (hexDigitChar (c.toNat % 16)) = some (c.toNat % 16) :=
        hexDigitVal_hexDigitChar _ (by omega)
      simp only [pctEncodeByte, List.cons_append, List.nil_append]
      rw [unquotePlus_pct _ _ _ _ rest hv1 hv2,
        show 16 * (c.toNat / 16) + c.toNat % 16 = c.toNat by omega,
        Char.ofNat_toNat]

theorem unquotePlus_quotePlus (s : List Char) (h : ∀ c ∈ s, c.toNat < 256) :
    unquotePlus (quotePlus s) = s := by
  induction s with
  | nil => rfl
  | cons c cs ih =>
    have e1 : quotePlus (c :: cs) = quotePlusChar c ++ quotePlus cs := by
      simp [quotePlus]
    rw [e1, unquotePlus_quotePlusChar c _ (h c (by simp)),
      ih (fun d hd => h d (by simp [hd]))]

theorem hexDigitVal_lt (c : Char) (x : Nat) (h : hexDigitVal c = some x) : x < 16 := by
  unfold hexDigitVal at h
  split_ifs at h with h1 h2 h3
  all_goals simp_all
  all_goals omega

theorem charToNat_ofNat (n : Nat) (h : n < 55296) : (Char.ofNat n).toNat = n := by
  unfold Char.ofNat
  rw [dif_pos (Or.inl h)]
  rfl

theorem unquotePlus_pct_bad (a b : Char) (rest : List Char)
    (hm : ∀ (x y : Nat), hexDigitVal a = some x → hexDigitVal b = some y → False) :
    unquotePlus ('%' :: a :: b :: rest) = '%' :: unquotePlus (a :: b :: rest) := by
  cases hxa : hexDigitVal a with
  | none => simp [unquotePlus, hxa]
  | some x =>
    cases hxb : hexDigitVal b with
    | none => simp [unquotePlus, hxa, hxb]
    | some y => exact (hm x y hxa hxb).elim

theorem unquotePlus_toNat_lt (s : List Char) (h : ∀ c ∈ s, c.toNat < 128) :
    ∀ c ∈ unquotePlus s, c.toNat < 256 := by
  induction s using unquotePlus.induct with
  | case1 => intro c hc; simp [unquotePlus] at hc
  | case2 a b rest x y hy hx ih =>
    intro c hc
    simp only [unquotePlus, hx, hy, List.mem_cons] at hc
    rcases hc with rfl | hc
    · have hxl := hexDigitVal_lt a x hx
      have hyl := hexDigitVal_lt b y hy
      rw [charToNat_ofNat _ (by omega)]
      omega
    · exact ih (fun d hd => h d (by simp [hd])) c hc
  | case3 a b rest hm ih =>
    intro c hc
    rw [unquotePlus_pct_bad a b rest hm] at hc
    rcases List.mem_cons.mp hc with rfl | hc
    · decide
    · exact ih (fun d hd => h d (by simp [hd])) c hc
  | case4 rest ih =>
    intro c hc
    simp only [unquotePlus, List.mem_cons] at hc
    rcases hc with rfl | hc
    · decide
    · exact ih (fun d hd => h d (by simp [hd])) c hc
  | case5 c0 rest hn1 hn2 ih =>
    intro c hc
    rw [unquotePlus.eq_def] at hc
    have hred : (match c0 :: rest with
        | [] => ([] : List Char)
        | '%' :: a :: b :: rest =>
          (match hexDigitVal a, hexDigitVal b with
           | some x, some y => Char.ofNat (16 * x + y) :: unquotePlus rest
           | _, _ => '%' :: unquotePlus (a :: b :: rest))
        | '+' :: rest => ' ' :: unquotePlus rest
        | c :: rest => c :: unquotePlus rest) = c0 :: unquotePlus rest := by
      split
      · rename_i heq; exact absurd heq.symm (by simp)
      · rename_i a b r heq
        injection heq with e1 e2
        exact (hn1 a b r e1 e2).elim
      · rename_i r heq
        injection heq with e1 _
        exact (hn2 e1).elim
      · rename_i cc rr hna hnb heq
        injection heq with e1 e2
        rw [e1, e2]
    rw [hred] at hc
    rcases List.mem_cons.mp hc with rfl | hc
    · have := h c (by simp)
      omega
    · exact ih (fun d hd => h d (by simp [hd])) c hc

/-! ### Split/join lemmas for the query string -/

theorem splitOnPred_all_false (p : Char → Bool) (l : List Char)
    (h : ∀ c ∈ l, p c = false) : splitOnPred p l = [l] := by
  induction l with
  | nil => rfl
  | cons c cs ih =>
    simp only [splitOnPred, h c (by simp), Bool.false_eq_true, if_false,
      ih (fun d hd => h d (by simp [hd]))]

theorem splitOnPred_append (p : Char → Bool) (sep : Char) (x r : List Char)
    (hx : ∀ c ∈ x, p c = false) (hs : p sep = true) :
    splitOnPred p (x ++ sep :: r) = x :: splitOnPred p r := by
  induction x with
  | nil => simp [splitOnPred, hs]
  | cons c cs ih =>
    have ih' := ih (fun d hd => hx d (by simp [hd]))
    simp only [List.cons_append, splitOnPred, hx c (by simp), Bool.false_eq_true, if_false,
      List.append_eq, ih']

theorem splitOnPred_mem_subset (p : Char → Bool) (l : List Char) :
    ∀ piece ∈ splitOnPred p l, ∀ c ∈ piece, c ∈ l := by
  induction l with
  | nil =>
    intro piece hp
    simp only [splitOnPred, List.mem_singleton] at hp
    subst hp
    intro c hc
    simp at hc
  | cons c0 cs ih =>
    intro piece hp
    simp only [splitOnPred] at hp
    by_cases hc0 : p c0 = true
    · rw [if_pos hc0] at hp
      rcases List.mem_cons.mp hp with rfl | hp
      · intro c hc; simp at hc
      · intro c hc
        exact List.mem_cons_of_mem _ (ih piece hp c hc)
    · rw [if_neg (by simpa using hc0)] at hp
      cases hsp : splitOnPred p cs with
      | nil =>
        rw [hsp] at hp
        simp only [List.mem_singleton] at hp
        subst hp
        intro c hc
        simp only [List.mem_singleton] at hc
        simp [hc]
      | cons h0 t =>
        rw [hsp] at hp
        rcases List.mem_cons.mp hp with rfl | hp
        · intro c hc
          rcases List.mem_cons.mp hc with rfl | hc
          · simp
          · exact List.mem_cons_of_mem _ (ih h0 (by rw [hsp]; simp) c hc)
        · intro c hc
          exact List.mem_cons_of_mem _ (ih piece (by rw [hsp]; simp [hp]) c hc)

theorem intercalate_splitOnSep (sep : Char) (fields : List (List Char)) (f0 : List Char)
    (hf : ∀ f ∈ f0 :: fields, ∀ c ∈ f, (c == sep) = false) :
    splitOnSep sep (intercalateChar sep (f0 :: fields)) = f0 :: fields := by
  induction fields generalizing f0 with
  | nil => exact splitOnPred_all_false _ _ (hf f0 (by simp))
  | cons f1 rest ih =>
    show splitOnPred (fun c => c == sep) (f0 ++ sep :: intercalateChar sep (f1 :: rest)) = _
    rw [splitOnPred_append _ sep _ _ (hf f0 (by simp)) (by simp)]
    rw [show splitOnPred (fun c => c == sep) (intercalateChar sep (f1 :: rest)) =
        splitOnSep sep (intercalateChar sep (f1 :: rest)) from rfl]
    rw [ih f1 (fun f hmem => hf f (by simp only [List.mem_cons] at hmem ⊢; tauto))]

theorem splitFirstChar_append (sep : Char) (a b : List Char)
    (ha : ∀ c ∈ a, (c == sep) = false) :
    splitFirstChar sep (a ++ sep :: b) = some (a, b) := by
  induction a with
  | nil => simp [splitFirstChar]
  | cons c cs ih =>
    have ih' := ih (fun d hd => ha d (by simp [hd]))
    simp only [List.cons_append, splitFirstChar, ha c (by simp), Bool.false_eq_true, if_false,
      List.append_eq, ih']

theorem splitFirstChar_none (sep : Char) (l : List Char)
    (h : ∀ c ∈ l, (c == sep) = false) : splitFirstChar sep l = none := by
  induction l with
  | nil => rfl
  | cons c cs ih =>
    simp only [splitFirstChar, h c (by simp), Bool.false_eq_true, if_false,
      ih (fun d hd => h d (by simp [hd]))]

theorem splitFirstChar_eq_some (sep : Char) (l : List Char) :
    ∀ a b : List Char, splitFirstChar sep l = some (a, b) →
      l = a ++ sep :: b ∧ ∀ c ∈ a, (c == sep) = false := by
  induction l with
  | nil => intro a b h; simp [splitFirstChar] at h
  | cons c cs ih =>
    intro a b h
    simp only [splitFirstChar] at h
    by_cases hc : (c == sep) = true
    · rw [if_pos hc] at h
      simp only [Option.some.injEq, Prod.mk.injEq] at h
      obtain ⟨rfl, rfl⟩ := h
      have : c = sep := by simpa using hc
      subst this
      exact ⟨by simp, by intro x hx; simp at hx⟩
    · rw [if_neg (by simpa using hc)] at h
      cases hsp : splitFirstChar sep cs with
      | none => rw [hsp] at h; simp at h
      | some ab =>
        obtain ⟨a', b'⟩ := ab
        rw [hsp] at h
        simp only [Option.some.injEq, Prod.mk.injEq] at h
        obtain ⟨ha1, hb1⟩ := h
        subst ha1
        subst hb1
        obtain ⟨he, hall⟩ := ih a' b' hsp
        constructor
        · rw [he]; simp
        · intro d hd
          rcases List.mem_cons.mp hd with rfl | hd
          · simpa using hc
          · exact hall d hd

theorem filterMapId (f : α → Option α) (l : List α) (h : ∀ x ∈ l, f x = some x) :
    l.filterMap f = l := by
  induction l with
  | nil => rfl
  | cons x xs ih =>
    rw [List.filterMap_cons, h x (by simp), ih (fun y hy => h y (by simp [hy]))]

/-! ### `parse_qsl` inverts `urlencode` -/

theorem parseQsl_urlencode (l : List (List Char × List Char))
    (h : ∀ kv ∈ l, (∀ c ∈ kv.1, c.toNat < 256) ∧ (∀ c ∈ kv.2, c.toNat < 256)) :
    parseQsl (urlencodePairs l) = l := by
  cases l with
  | nil => rfl
  | cons kv0 rest =>
    simp only [parseQsl, urlencodePairs, List.map_cons]
    rw [intercalate_splitOnSep '&' _ _ (by
      intro f hf c hc
      have hmem : ∃ kv : List Char × List Char,
          f = quotePlus kv.1 ++ '=' :: quotePlus kv.2 := by
        rcases List.mem_cons.mp hf with rfl | hf2
        · exact ⟨kv0, rfl⟩
        · obtain ⟨kv, _, hkv⟩ := List.mem_map.mp hf2
          exact ⟨kv, hkv.symm⟩
      obtain ⟨kv, rfl⟩ := hmem
      rcases List.mem_append.mp hc with hq | hq
      · exact beq_false_of_toNat_ne c '&' (qGood_toNat c (quotePlus_good _ c hq)).2.1
      · rcases List.mem_cons.mp hq with rfl | hq
        · decide
        · exact beq_false_of_toNat_ne c '&' (qGood_toNat c (quotePlus_good _ c hq)).2.1)]
    rw [show (quotePlus kv0.1 ++ '=' :: quotePlus kv0.2) ::
        List.map (fun kv : List Char × List Char => quotePlus kv.1 ++ '=' :: quotePlus kv.2) rest =
        List.map (fun kv : List Char × List Char => quotePlus kv.1 ++ '=' :: quotePlus kv.2)
          (kv0 :: rest) from rfl]
    rw [List.filterMap_map]
    apply filterMapId
    intro kv hkv
    obtain ⟨h1, h2⟩ := h kv hkv
    have hne : (quotePlus kv.1 ++ '=' :: quotePlus kv.2).isEmpty = false := by
      cases hq : quotePlus kv.1 <;> simp [hq]
    have hsp := splitFirstChar_append '=' (quotePlus kv.1) (quotePlus kv.2)
      (fun c hc => beq_false_of_toNat_ne c '=' (qGood_toNat c (quotePlus_good _ c hc)).2.2.1)
    simp only [Function.comp, hne, Bool.false_eq_true, if_false, hsp,
      unquotePlus_quotePlus _ h1, unquotePlus_quotePlus _ h2]

theorem parseQsl_chars_lt (q : List Char) (h : ∀ c ∈ q, c.toNat < 128) :
    ∀ kv ∈ parseQsl q, (∀ c ∈ kv.1, c.toNat < 256) ∧ (∀ c ∈ kv.2, c.toNat < 256) := by
  intro kv hkv
  simp only [parseQsl, List.mem_filterMap] at hkv
  obtain ⟨field, hfield, hf⟩ := hkv
  have hfsub : ∀ c ∈ field, c.toNat < 128 :=
    fun c hc => h c (splitOnPred_mem_subset _ _ field hfield c hc)
  by_cases he : field.isEmpty
  · rw [if_pos he] at hf
    exact absurd hf (by simp)
  · rw [if_neg he] at hf
    cases hsp : splitFirstChar '=' field with
    | some nv =>
      obtain ⟨n, v⟩ := nv
      rw [hsp] at hf
      simp only [Option.some.injEq] at hf
      subst hf
      obtain ⟨hchar, _⟩ := splitFirstChar_eq_some '=' field n v hsp
      constructor
      · exact unquotePlus_toNat_lt n (fun c hc => hfsub c (by rw [hchar]; simp [hc]))
      · exact unquotePlus_toNat_lt v (fun c hc => hfsub c (by rw [hchar]; simp [hc]))
    | none =>
      rw [hsp] at hf
      simp only [Option.some.injEq] at hf
      subst hf
      refine ⟨unquotePlus_toNat_lt field hfsub, ?_⟩
      intro c hc
      simp at hc

/-! ### Properties of the ordered dict (`dict(parse_qsl(...))`) -/

theorem dictInsert_mem (k v : List Char) (acc : List (List Char × List Char)) :
    ∀ kv ∈ dictInsert k v acc, kv ∈ acc ∨ kv = (k, v) := by
  induction acc with
  | nil =>
    intro kv hkv
    simp only [dictInsert, List.mem_singleton] at hkv
    exact Or.inr hkv
  | cons p rest ih =>
    obtain ⟨k0, v0⟩ := p
    intro kv hkv
    simp only [dictInsert] at hkv
    by_cases hk : (k0 == k) = true
    · rw [if_pos hk] at hkv
      rcases List.mem_cons.mp hkv with rfl | hkv
      · right
        have : k0 = k := by simpa using hk
        rw [this]
      · exact Or.inl (by simp [hkv])
    · rw [if_neg (by simpa using hk)] at hkv
      rcases List.mem_cons.mp hkv with rfl | hkv
      · exact Or.inl (by simp)
      · rcases ih kv hkv with h' | h'
        · exact Or.inl (by simp [h'])
        · exact Or.inr h'

theorem toDictAux_mem (l : List (List Char × List Char)) :
    ∀ acc, ∀ kv ∈ toDictAux acc l, kv ∈ acc ∨ kv ∈ l := by
  induction l with
  | nil => intro acc kv hkv; exact Or.inl hkv
  | cons p rest ih =>
    obtain ⟨k0, v0⟩ := p
    intro acc kv hkv
    rcases ih (dictInsert k0 v0 acc) kv hkv with h' | h'
    · rcases dictInsert_mem k0 v0 acc kv h' with h2 | h2
      · exact Or.inl h2
      · exact Or.inr (by simp [h2])
    · exact Or.inr (by simp [h'])

theorem toDict_mem (l : List (List Char × List Char)) :
    ∀ kv ∈ toDict l, kv ∈ l := by
  intro kv hkv
  rcases toDictAux_mem l [] kv hkv with h' | h'
  · simp at h'
  · exact h'

theorem dictInsert_keys_mem (k v : List Char) (acc : List (List Char × List Char))
    (k' : List Char) :
    k' ∈ (dictInsert k v acc).map Prod.fst ↔ k' ∈ acc.map Prod.fst ∨ k' = k := by
  induction acc with
  | nil => simp [dictInsert]
  | cons p rest ih =>
    obtain ⟨k0, v0⟩ := p
    simp only [dictInsert]
    by_cases hk : (k0 == k) = true
    · rw [if_pos hk]
      have hk0 : k0 = k := by simpa using hk
      subst hk0
      simp only [List.map_cons, List.mem_cons]
      tauto
    · rw [if_neg (by simpa using hk)]
      simp only [List.map_cons, List.mem_cons, ih]
      tauto

theorem dictInsert_keys_nodup (k v : List Char) (acc : List (List Char × List Char))
    (h : (acc.map Prod.fst).Nodup) : ((dictInsert k v acc).map Prod.fst).Nodup := by
  induction acc with
  | nil => simp [dictInsert]
  | cons p rest ih =>
    obtain ⟨k0, v0⟩ := p
    simp only [List.map_cons, List.nodup_cons] at h
    obtain ⟨hk0, hrest⟩ := h
    simp only [dictInsert]
    by_cases hk : (k0 == k) = true
    · rw [if_pos hk]
      simp only [List.map_cons, List.nodup_cons]
      exact ⟨hk0, hrest⟩
    · rw [if_neg (by simpa using hk)]
      simp only [List.map_cons, List.nodup_cons]
      refine ⟨?_, ih hrest⟩
      rw [dictInsert_keys_mem]
      rintro (h' | rfl)
      · exact hk0 h'
      · simp at hk

theorem toDictAux_keys_nodup (l : List (List Char × List Char)) :
    ∀ acc, (acc.map Prod.fst).Nodup → ((toDictAux acc l).map Prod.fst).Nodup := by
  induction l with
  | nil => intro acc h; exact h
  | cons p rest ih =>
    obtain ⟨k0, v0⟩ := p
    intro acc h
    exact ih (dictInsert k0 v0 acc) (dictInsert_keys_nodup k0 v0 acc h)

theorem toDict_keys_nodup (l : List (List Char × List Char)) :
    ((toDict l).map Prod.fst).Nodup :=
  toDictAux_keys_nodup l [] (by simp)

theorem toDictAux_keys_mem (l : List (List Char × List Char)) :
    ∀ acc (k : List Char),
      (k ∈ (toDictAux acc l).map Prod.fst ↔
        k ∈ acc.map Prod.fst ∨ k ∈ l.map Prod.fst) := by
  induction l with
  | nil => intro acc k; simp [toDictAux]
  | cons p rest ih =>
    obtain ⟨k0, v0⟩ := p
    intro acc k
    rw [show toDictAux acc ((k0, v0) :: rest) = toDictAux (dictInsert k0 v0 acc) rest from rfl]
    rw [ih (dictInsert k0 v0 acc) k, dictInsert_keys_mem]
    simp only [List.map_cons, List.mem_cons]
    tauto

theorem toDict_keys_mem (l : List (List Char × List Char)) (k : List Char) :
    k ∈ (toDict l).map Prod.fst ↔ k ∈ l.map Prod.fst := by
  rw [toDict, toDictAux_keys_mem l [] k]
  simp

theorem dictInsert_mem_nodup (k0 v0 : List Char) (acc : List (List Char × List Char))
    (hnd : (acc.map Prod.fst).Nodup) (k v : List Char)
    (h : (k, v) ∈ dictInsert k0 v0 acc) :
    (k = k0 ∧ v = v0) ∨ (k ≠ k0 ∧ (k, v) ∈ acc) := by
  induction acc with
  | nil =>
    simp only [dictInsert, List.mem_singleton, Prod.mk.injEq] at h
    exact Or.inl h
  | cons p rest ih =>
    obtain ⟨ka, va⟩ := p
    simp only [List.map_cons, List.nodup_cons] at hnd
    obtain ⟨hka, hrest⟩ := hnd
    simp only [dictInsert] at h
    by_cases hk : (ka == k0) = true
    · have hkeq : ka = k0 := by simpa using hk
      subst hkeq
      rw [if_pos (by simp)] at h
      rcases List.mem_cons.mp h with heq | hmem2
      · simp only [Prod.mk.injEq] at heq
        exact Or.inl ⟨heq.1, heq.2⟩
      · by_cases hkk : k = ka
        · subst hkk
          exact absurd (List.mem_map_of_mem Prod.fst hmem2) hka
        · exact Or.inr ⟨hkk, List.mem_cons_of_mem _ hmem2⟩
    · rw [if_neg (by simpa using hk)] at h
      rcases List.mem_cons.mp h with heq | hmem2
      · simp only [Prod.mk.injEq] at heq
        obtain ⟨rfl, rfl⟩ := heq
        exact Or.inr ⟨by simpa using hk, by simp⟩
      · rcases ih hrest hmem2 with h' | h'
        · exact Or.inl h'
        · exact Or.inr ⟨h'.1, List.mem_cons_of_mem _ h'.2⟩

theorem toDictAux_value (l : List (List Char × List Char)) :
    ∀ acc, (acc.map Prod.fst).Nodup → ∀ k v : List Char, (k, v) ∈ toDictAux acc l →
      (match l.reverse.find? (fun kv => kv.1 == k) with
       | some kv => v = kv.2
       | none => (k, v) ∈ acc) := by
  induction l with
  | nil =>
    intro acc _ k v h
    simpa [toDictAux] using h
  | cons p rest ih =>
    obtain ⟨k0, v0⟩ := p
    intro acc hnd k v h
    have hnd' := dictInsert_keys_nodup k0 v0 acc hnd
    have hres := ih (dictInsert k0 v0 acc) hnd' k v h
    rw [show ((k0, v0) :: rest).reverse = rest.reverse ++ [(k0, v0)] by simp]
    rw [List.find?_append]
    cases hf : rest.reverse.find? (fun kv => kv.1 == k) with
    | some kv =>
      rw [hf] at hres
      simpa using hres
    | none =>
      rw [hf] at hres
      rcases dictInsert_mem_nodup k0 v0 acc hnd k v hres with ⟨rfl, rfl⟩ | ⟨hne, hmem⟩
      · simp
      · have hb : (k0 == k) = false := by
          simp only [beq_eq_false_iff_ne, ne_eq]
          intro hcon
          exact hne hcon.symm
        simp [hb, hmem]

theorem toDict_value (l : List (List Char × List Char)) (k v : List Char)
    (h : (k, v) ∈ toDict l) :
    ∃ kv, l.reverse.find? (fun kv => kv.1 == k) = some kv ∧ v = kv.2 := by
  have hres := toDictAux_value l [] (by simp) k v h
  cases hf : l.reverse.find? (fun kv => kv.1 == k) with
  | some kv =>
    rw [hf] at hres
    exact ⟨kv, rfl, hres⟩
  | none =>
    rw [hf] at hres
    simp at hres

theorem dictInsert_not_mem (k v : List Char) (acc : List (List Char × List Char))
    (h : ∀ kv ∈ acc, (kv.1 == k) = false) :
    dictInsert k v acc = acc ++ [(k, v)] := by
  induction acc with
  | nil => rfl
  | cons p rest ih =>
    obtain ⟨k0, v0⟩ := p
    simp only [dictInsert]
    rw [if_neg (by simpa using h (k0, v0) (by simp)), List.cons_append,
      ih (fun kv hkv => h kv (by simp [hkv]))]

theorem toDictAux_nodup_id (l : List (List Char × List Char)) :
    ∀ acc, (∀ kv ∈ l, ∀ kv' ∈ acc, (kv'.1 == kv.1) = false) →
      (l.map Prod.fst).Nodup → toDictAux acc l = acc ++ l := by
  induction l with
  | nil => intro acc _ _; simp [toDictAux]
  | cons p rest ih =>
    obtain ⟨k0, v0⟩ := p
    intro acc hacc hnd
    simp only [List.map_cons, List.nodup_cons] at hnd
    obtain ⟨hk0, hrest⟩ := hnd
    rw [show toDictAux acc ((k0, v0) :: rest) = toDictAux (dictInsert k0 v0 acc) rest from rfl]
    rw [dictInsert_not_mem k0 v0 acc (fun kv hkv => hacc (k0, v0) (by simp) kv hkv)]
    rw [ih (acc ++ [(k0, v0)]) ?_ hrest]
    · simp
    · intro kv hkv kv' hkv'
      rcases List.mem_append.mp hkv' with h' | h'
      · exact hacc kv (by simp [hkv]) kv' h'
      · simp only [List.mem_singleton] at h'
        subst h'
        simp only [beq_eq_false_iff_ne, ne_eq]
        intro hcon
        exact hk0 (hcon ▸ List.mem_map_of_mem Prod.fst hkv)

theorem toDict_nodup_id (l : List (List Char × List Char))
    (h : (l.map Prod.fst).Nodup) : toDict l = l := by
  rw [toDict, toDictAux_nodup_id l [] (by simp) h]
  rfl

/-! ### C7: what `_normalize_service_base` does to the query -/

/-- C7 counterexample: in `http://h/p?a=1&a=2` no key matches
SERVICE/REQUEST/VERSION, so the claim requires every parameter
occurrence (and the query's encoding) to be preserved; the code's
`dict(parse_qsl(...))` collapses the repeated key `a` to its last value
and the URL changes. -/
theorem normalize_service_base_counterexample :
    ((parseQsl ("a=1&a=2".data)).map Prod.fst).all (fun k => !droppedKey k) = true ∧
    normalizeServiceBase "http://h/p?a=1&a=2" = "http://h/p?a=2" ∧
    normalizeServiceBase "http://h/p?a=1&a=2" ≠ "http://h/p?a=1&a=2" := by
  refine ⟨by decide, by decide, by decide⟩

theorem parseQsl_normalized_chars (u : String)
    (hq : ∀ c ∈ (urlsplit u).query.data, c.toNat < 128) :
    ∀ kv ∈ dropCapsKeys (toDict (parseQsl (urlsplit u).query.data)),
      (∀ c ∈ kv.1, c.toNat < 256) ∧ (∀ c ∈ kv.2, c.toNat < 256) := by
  intro kv hkv
  have h1 : kv ∈ toDict (parseQsl (urlsplit u).query.data) := (List.mem_filter.mp hkv).1
  have h2 : kv ∈ parseQsl (urlsplit u).query.data := toDict_mem _ kv h1
  exact parseQsl_chars_lt _ hq kv h2

/-- C7 amended: `_normalize_service_base` keeps scheme, netloc, path and
fragment exactly and rewrites the query: the decoded parameters are
key-deduplicated (first-occurrence position, last value wins), exactly
the SERVICE/REQUEST/VERSION keys are removed (matched case-insensitively
on the decoded key), and the kept pairs are re-encoded by `urlencode` —
so repeated keys and the original byte-level encoding are not preserved,
but the remaining key set, each key's last value, and the first-occurrence
key order are.  Stated for ASCII queries, the range of real query
strings. -/
theorem normalize_service_base_amended (u : String)
    (hq : ∀ c ∈ (urlsplit u).query.data, c.toNat < 128) :
    normalizeServiceBase u =
      urlunsplit { urlsplit u with
        query := String.mk (urlencodePairs
          (dropCapsKeys (toDict (parseQsl (urlsplit u).query.data)))) } ∧
    parseQsl (normalizeQuery (urlsplit u).query.data) =
      dropCapsKeys (toDict (parseQsl (urlsplit u).query.data)) ∧
    (∀ kv ∈ dropCapsKeys (toDict (parseQsl (urlsplit u).query.data)),
      droppedKey kv.1 = false ∧ kv ∈ parseQsl (urlsplit u).query.data) ∧
    (∀ kv ∈ toDict (parseQsl (urlsplit u).query.data), droppedKey kv.1 = false →
      kv ∈ dropCapsKeys (toDict (parseQsl (urlsplit u).query.data))) ∧
    ((dropCapsKeys (toDict (parseQsl (urlsplit u).query.data))).map Prod.fst).Nodup ∧
    (∀ k : List Char, k ∈ (toDict (parseQsl (urlsplit u).query.data)).map Prod.fst ↔
      k ∈ (parseQsl (urlsplit u).query.data).map Prod.fst) ∧
    (∀ k v : List Char, (k, v) ∈ toDict (parseQsl (urlsplit u).query.data) →
      ∃ kv, (parseQsl (urlsplit u).query.data).reverse.find?
          (fun kv => kv.1 == k) = some kv ∧ v = kv.2) := by
  refine ⟨rfl, ?_, ?_, ?_, ?_, ?_, ?_⟩
  · exact parseQsl_urlencode _ (parseQsl_normalized_chars u hq)
  · intro kv hkv
    refine ⟨?_, toDict_mem _ kv (List.mem_filter.mp hkv).1⟩
    have := (List.mem_filter.mp hkv).2
    simpa using this
  · intro kv hkv hdrop
    exact List.mem_filter.mpr ⟨hkv, by simp [hdrop]⟩
  · exact ((toDict_keys_nodup _).sublist
      (List.Sublist.map Prod.fst (List.filter_sublist _)))
  · exact fun k => toDict_keys_mem _ k
  · exact fun k v h => toDict_value _ k v h

/-- Witness for the amended C7 at a concrete URL: a repeated key keeps
its last value, `SERVICE` is dropped case-insensitively, `b` survives. -/
theorem normalize_service_base_amended_witness :
    normalizeServiceBase "http://h/p?a=1&Service=WMS&a=2&b=x%20y" = "http://h/p?a=2&b=x+y" :=
  ((normalize_service_base_amended "http://h/p?a=1&Service=WMS&a=2&b=x%20y"
    (by decide)).1).trans (by decide)

/-! ### C8: `urlsplit` recovers the components written by `urlunsplit` -/

theorem takeWhile_append_all (p : Char → Bool) (x r : List Char)
    (h : ∀ c ∈ x, p c = true) : (x ++ r).takeWhile p = x ++ r.takeWhile p := by
  induction x with
  | nil => rfl
  | cons c cs ih =>
    rw [List.cons_append, List.takeWhile_cons, if_pos (h c (by simp)), List.cons_append,
      ih (fun d hd => h d (by simp [hd]))]

theorem dropWhile_append_all (p : Char → Bool) (x r : List Char)
    (h : ∀ c ∈ x, p c = true) : (x ++ r).dropWhile p = r.dropWhile p := by
  induction x with
  | nil => rfl
  | cons c cs ih =>
    rw [List.cons_append, List.dropWhile_cons, if_pos (h c (by simp)),
      ih (fun d hd => h d (by simp [hd]))]

theorem splitNetloc_not_slash (l : List Char) (h : isSlashSlash l = false) :
    splitNetloc l = ([], l) := by
  rw [splitNetloc.eq_def]
  split
  · simp [isSlashSlash] at h
  · rfl

theorem splitFirstChar_none_chars (sep : Char) (l : List Char)
    (h : splitFirstChar sep l = none) : ∀ c ∈ l, (c == sep) = false := by
  induction l with
  | nil => intro c hc; simp at hc
  | cons c0 cs ih =>
    simp only [splitFirstChar] at h
    by_cases hc0 : (c0 == sep) = true
    · rw [if_pos hc0] at h; simp at h
    · rw [if_neg (by simpa using hc0)] at h
      intro c hc
      rcases List.mem_cons.mp hc with rfl | hc
      · simpa using hc0
      · cases hsp : splitFirstChar sep cs with
        | none => exact ih hsp c hc
        | some ab => rw [hsp] at h; simp at h

theorem splitAtFirst_append (sep : Char) (a b : List Char)
    (ha : ∀ c ∈ a, (c == sep) = false) :
    splitAtFirst sep (a ++ sep :: b) = (a, b) := by
  rw [splitAtFirst, splitFirstChar_append sep a b ha]

theorem splitAtFirst_no_sep (sep : Char) (l : List Char)
    (h : ∀ c ∈ l, (c == sep) = false) : splitAtFirst sep l = (l, []) := by
  rw [splitAtFirst, splitFirstChar_none sep l h]

theorem splitAtFirst_fst_no_sep (sep : Char) (l : List Char) :
    ∀ c ∈ (splitAtFirst sep l).1, (c == sep) = false := by
  rw [splitAtFirst]
  cases hsp : splitFirstChar sep l with
  | none => exact splitFirstChar_none_chars sep l hsp
  | some ab =>
    obtain ⟨a, b⟩ := ab
    exact (splitFirstChar_eq_some sep l a b hsp).2

theorem splitAtFirst_fst_subset (sep : Char) (l : List Char) :
    ∀ c ∈ (splitAtFirst sep l).1, c ∈ l := by
  rw [splitAtFirst]
  cases hsp : splitFirstChar sep l with
  | none => exact fun c hc => hc
  | some ab =>
    obtain ⟨a, b⟩ := ab
    obtain ⟨he, _⟩ := splitFirstChar_eq_some sep l a b hsp
    intro c hc
    rw [he]
    simp [hc]

theorem splitAtFirst_snd_subset (sep : Char) (l : List Char) :
    ∀ c ∈ (splitAtFirst sep l).2, c ∈ l := by
  rw [splitAtFirst]
  cases hsp : splitFirstChar sep l with
  | none => intro c hc; simp at hc
  | some ab =>
    obtain ⟨a, b⟩ := ab
    obtain ⟨he, _⟩ := splitFirstChar_eq_some sep l a b hsp
    intro c hc
    rw [he]
    simp [hc]

theorem dropWhile_eq_cons_head (p : Char → Bool) (l : List Char) (c : Char) (t : List Char)
    (h : l.dropWhile p = c :: t) : p c = false := by
  induction l with
  | nil => simp at h
  | cons c0 cs ih =>
    rw [List.dropWhile_cons] at h
    by_cases hc0 : p c0 = true
    · rw [if_pos hc0] at h
      exact ih h
    · rw [if_neg (by simpa using hc0)] at h
      obtain ⟨rfl, _⟩ := List.cons.injEq .. ▸ h
      · simpa using hc0

/-! ### Character classes of the URL components -/

theorem pyLowerChar_toNat (c : Char) :
    (pyLowerChar c).toNat =
      if 65 ≤ c.toNat ∧ c.toNat ≤ 90 then c.toNat + 32 else c.toNat := by
  by_cases h : 65 ≤ c.toNat ∧ c.toNat ≤ 90
  · rw [pyLowerChar, if_pos (by simp only [Bool.and_eq_true, decide_eq_true_eq]; exact h),
      if_pos h, charToNat_ofNat _ (by omega)]
  · rw [pyLowerChar, if_neg (by
      simp only [Bool.and_eq_true, decide_eq_true_eq]
      exact h), if_neg h]

theorem pyLowerChar_idem (c : Char) : pyLowerChar (pyLowerChar c) = pyLowerChar c := by
  by_cases h : 65 ≤ c.toNat ∧ c.toNat ≤ 90
  · have hn : (pyLowerChar c).toNat = c.toNat + 32 := by
      rw [pyLowerChar_toNat, if_pos h]
    rw [show pyLowerChar (pyLowerChar c) =
        (if 65 ≤ (pyLowerChar c).toNat && (pyLowerChar c).toNat ≤ 90 then
          Char.ofNat ((pyLowerChar c).toNat + 32) else pyLowerChar c) from rfl]
    rw [hn, if_neg (by simp only [Bool.and_eq_true, decide_eq_true_eq]; omega)]
  · have he : pyLowerChar c = c := by
      rw [pyLowerChar, if_neg (by
        simp only [Bool.and_eq_true, decide_eq_true_eq]
        exact h)]
    rw [he, he]

theorem isAsciiAlpha_pyLowerChar (c : Char) (h : isAsciiAlpha c = true) :
    isAsciiAlpha (pyLowerChar c) = true := by
  simp only [isAsciiAlpha, Bool.or_eq_true, Bool.and_eq_true, decide_eq_true_eq] at h ⊢
  rw [pyLowerChar_toNat]
  split_ifs with h2
  · omega
  · omega

theorem isSchemeChar_pyLowerChar (c : Char) (h : isSchemeChar c = true) :
    isSchemeChar (pyLowerChar c) = true := by
  simp only [isSchemeChar, Bool.or_eq_true, Bool.and_eq_true,
    decide_eq_true_eq, beq_iff_eq] at h ⊢
  rcases h with ((((h | h) | h) | rfl) | rfl) | rfl
  · rw [pyLowerChar_toNat]
    split_ifs <;> omega
  · rw [pyLowerChar_toNat]
    split_ifs
    omega
  · rw [pyLowerChar_toNat]
    split_ifs <;> omega
  all_goals decide

theorem isAsciiAlpha_isSchemeChar (c : Char) (h : isAsciiAlpha c = true) :
    isSchemeChar c = true := by
  simp only [isAsciiAlpha, Bool.or_eq_true, Bool.and_eq_true, decide_eq_true_eq] at h
  simp only [isSchemeChar, Bool.or_eq_true, Bool.and_eq_true, decide_eq_true_eq]
  tauto

theorem notCtl_of_toNat (c : Char) (h : c.toNat ≠ 9 ∧ c.toNat ≠ 13 ∧ c.toNat ≠ 10) :
    notCtl c = true := by
  rw [notCtl, beq_false_of_toNat_ne c '\t' h.1, beq_false_of_toNat_ne c '\r' h.2.1,
    beq_false_of_toNat_ne c '\n' h.2.2]
  rfl

theorem schemeChar_props (c : Char) (h : isSchemeChar c = true) :
    (c == ':') = false ∧ notCtl c = true ∧ 32 < c.toNat := by
  simp only [isSchemeChar, Bool.or_eq_true, Bool.and_eq_true,
    decide_eq_true_eq, beq_iff_eq] at h
  have htn : 32 < c.toNat ∧ c.toNat ≠ 58 := by
    rcases h with ((((h | h) | h) | rfl) | rfl) | rfl
    · omega
    · omega
    · omega
    all_goals decide
  exact ⟨beq_false_of_toNat_ne c ':' htn.2, notCtl_of_toNat c (by omega), htn.1⟩

theorem qGood_query_props (c : Char) (h : qGood c = true) :
    (c == '#') = false ∧ (c == '?') = false ∧ notCtl c = true ∧ 32 < c.toNat := by
  obtain ⟨h32, _, _, h35, h63⟩ := qGood_toNat c h
  exact ⟨beq_false_of_toNat_ne c '#' h35, beq_false_of_toNat_ne c '?' h63,
    notCtl_of_toNat c (by omega), h32⟩

theorem intercalateChar_mem (sep : Char) (fields : List (List Char)) :
    ∀ c ∈ intercalateChar sep fields, c = sep ∨ ∃ f ∈ fields, c ∈ f := by
  induction fields with
  | nil => intro c hc; simp [intercalateChar] at hc
  | cons f0 rest ih =>
    cases rest with
    | nil =>
      intro c hc
      simp only [intercalateChar] at hc
      exact Or.inr ⟨f0, by simp, hc⟩
    | cons f1 rest2 =>
      intro c hc
      simp only [intercalateChar, List.mem_append, List.mem_cons] at hc
      rcases hc with hc | rfl | hc
      · exact Or.inr ⟨f0, by simp, hc⟩
      · exact Or.inl rfl
      · rcases ih c hc with h' | ⟨g, hg, hcg⟩
        · exact Or.inl h'
        · exact Or.inr ⟨g, by simp [hg], hcg⟩

theorem urlencodePairs_chars (l : List (List Char × List Char)) :
    ∀ c ∈ urlencodePairs l,
      (c == '#') = false ∧ (c == '?') = false ∧ notCtl c = true ∧ 32 < c.toNat := by
  intro c hc
  rcases intercalateChar_mem '&' _ c hc with rfl | ⟨g, hg, hcg⟩
  · exact ⟨by decide, by decide, by decide, by decide⟩
  · obtain ⟨kv, _, rfl⟩ := List.mem_map.mp hg
    rcases List.mem_append.mp hcg with hq | hq
    · exact qGood_query_props c (quotePlus_good _ c hq)
    · rcases List.mem_cons.mp hq with rfl | hq
      · exact ⟨by decide, by decide, by decide, by decide⟩
      · exact qGood_query_props c (quotePlus_good _ c hq)

/-! ### Invariants established by `urlsplit` -/

theorem splitScheme_eq_none (l : List Char) (hsp : splitFirstChar ':' l = none) :
    splitScheme l = ([], l) := by
  unfold splitScheme
  rw [hsp]

theorem splitScheme_eq_empty (l after : List Char)
    (hsp : splitFirstChar ':' l = some ([], after)) : splitScheme l = ([], l) := by
  unfold splitScheme
  rw [hsp]

theorem splitScheme_eq_valid (l after : List Char) (b0 : Char) (bs : List Char)
    (hsp : splitFirstChar ':' l = some (b0 :: bs, after))
    (hv : (isAsciiAlpha b0 && bs.all isSchemeChar) = true) :
    splitScheme l = (List.map pyLowerChar (b0 :: bs), after) := by
  unfold splitScheme
  rw [hsp]
  show (if (isAsciiAlpha b0 && bs.all isSchemeChar) = true then
    (List.map pyLowerChar (b0 :: bs), after) else ([], l)) = _
  rw [if_pos hv]

theorem splitScheme_eq_invalid (l after : List Char) (b0 : Char) (bs : List Char)
    (hsp : splitFirstChar ':' l = some (b0 :: bs, after))
    (hv : (isAsciiAlpha b0 && bs.all isSchemeChar) = false) :
    splitScheme l = ([], l) := by
  unfold splitScheme
  rw [hsp]
  show (if (isAsciiAlpha b0 && bs.all isSchemeChar) = true then
    (List.map pyLowerChar (b0 :: bs), after) else ([], l)) = _
  rw [if_neg (by simp [hv])]

theorem splitScheme_fst_shape (l : List Char) (h : (splitScheme l).1 ≠ []) :
    ∃ c0 cs, (splitScheme l).1 = c0 :: cs ∧
      (isAsciiAlpha c0 && cs.all isSchemeChar) = true ∧
      List.map pyLowerChar (c0 :: cs) = c0 :: cs := by
  cases hsp : splitFirstChar ':' l with
  | none => rw [splitScheme_eq_none l hsp] at h; simp at h
  | some ab =>
    obtain ⟨before, after⟩ := ab
    cases before with
    | nil => rw [splitScheme_eq_empty l after hsp] at h; simp at h
    | cons b0 bs =>
      by_cases hv : (isAsciiAlpha b0 && bs.all isSchemeChar) = true
      · rw [splitScheme_eq_valid l after b0 bs hsp hv]
        refine ⟨pyLowerChar b0, bs.map pyLowerChar, by simp, ?_, ?_⟩
        · simp only [Bool.and_eq_true] at hv ⊢
          refine ⟨isAsciiAlpha_pyLowerChar _ hv.1, ?_⟩
          rw [List.all_eq_true] at hv ⊢
          intro x hx
          obtain ⟨y, hy, rfl⟩ := List.mem_map.mp hx
          exact isSchemeChar_pyLowerChar y (hv.2 y hy)
        · rw [show (pyLowerChar b0 :: bs.map pyLowerChar : List Char) =
            (b0 :: bs).map pyLowerChar from rfl, List.map_map]
          exact List.map_congr_left (fun x _ => pyLowerChar_idem x)
      · rw [splitScheme_eq_invalid l after b0 bs hsp (by simpa using hv)] at h
        simp at h

theorem splitScheme_snd_subset (l : List Char) : ∀ c ∈ (splitScheme l).2, c ∈ l := by
  cases hsp : splitFirstChar ':' l with
  | none => rw [splitScheme_eq_none l hsp]; exact fun c hc => hc
  | some ab =>
    obtain ⟨before, after⟩ := ab
    obtain ⟨he, _⟩ := splitFirstChar_eq_some ':' l before after hsp
    cases before with
    | nil => rw [splitScheme_eq_empty l after hsp]; exact fun c hc => hc
    | cons b0 bs =>
      by_cases hv : (isAsciiAlpha b0 && bs.all isSchemeChar) = true
      · rw [splitScheme_eq_valid l after b0 bs hsp hv]
        intro c hc
        rw [he]
        simp [hc]
      · rw [splitScheme_eq_invalid l after b0 bs hsp (by simpa using hv)]
        exact fun c hc => hc

theorem splitNetloc_fst_pred (l : List Char) :
    ∀ c ∈ (splitNetloc l).1, notNetlocEnd c = true := by
  rw [splitNetloc.eq_def]
  split
  · exact fun c hc => List.mem_takeWhile_imp hc
  · intro c hc; simp at hc

theorem splitNetloc_fst_subset (l : List Char) : ∀ c ∈ (splitNetloc l).1, c ∈ l := by
  rw [splitNetloc.eq_def]
  split
  · intro c hc
    simp only [List.mem_cons]
    exact Or.inr (Or.inr ((List.takeWhile_sublist _).mem hc))
  · intro c hc; simp at hc

theorem splitNetloc_snd_subset (l : List Char) : ∀ c ∈ (splitNetloc l).2, c ∈ l := by
  rw [splitNetloc.eq_def]
  split
  · intro c hc
    simp only [List.mem_cons]
    exact Or.inr (Or.inr ((List.dropWhile_sublist _).mem hc))
  · exact fun c hc => hc

theorem splitNetloc_snd_head (l : List Char) (h : (splitNetloc l).1 ≠ []) :
    (splitNetloc l).2 = [] ∨
      ∃ c t, (splitNetloc l).2 = c :: t ∧ notNetlocEnd c = false := by
  rw [splitNetloc.eq_def] at h ⊢
  split at h
  · rename_i rest
    cases hd : rest.dropWhile notNetlocEnd with
    | nil => exact Or.inl rfl
    | cons c t =>
      exact Or.inr ⟨c, t, rfl, dropWhile_eq_cons_head _ _ _ _ hd⟩
  · exact (h rfl).elim

theorem takeWhile_all (p : Char → Bool) (l : List Char) (h : ∀ c ∈ l, p c = true) :
    l.takeWhile p = l := by
  have := takeWhile_append_all p l [] h
  simpa using this

theorem splitAtFirst_fst_eq (sep : Char) (l : List Char) :
    (splitAtFirst sep l).1 = l.takeWhile (fun c => !(c == sep)) := by
  induction l with
  | nil => rfl
  | cons c t ih =>
    by_cases hc : (c == sep) = true
    · have hsf : splitFirstChar sep (c :: t) = some ([], t) := by
        simp [splitFirstChar, hc]
      rw [splitAtFirst, hsf, List.takeWhile_cons, if_neg (by simp [hc])]
    · rw [List.takeWhile_cons, if_pos (by simp [hc])]
      cases hsp : splitFirstChar sep t with
      | none =>
        have hsf : splitFirstChar sep (c :: t) = none := by
          simp [splitFirstChar, hc, hsp]
        rw [splitAtFirst, hsf]
        show c :: t = c :: t.takeWhile (fun c => !(c == sep))
        rw [takeWhile_all _ t (fun d hd => by
          simp [splitFirstChar_none_chars sep t hsp d hd])]
      | some ab =>
        obtain ⟨a, b⟩ := ab
        have hsf : splitFirstChar sep (c :: t) = some (c :: a, b) := by
          simp [splitFirstChar, hc, hsp]
        rw [splitAtFirst, hsf]
        show c :: a = c :: t.takeWhile (fun c => !(c == sep))
        have ih' : a = t.takeWhile (fun c => !(c == sep)) := by
          rw [← ih, splitAtFirst, hsp]
        rw [ih']

theorem splitAtFirst_fst_shape (sep c : Char) (t : List Char) :
    (splitAtFirst sep (c :: t)).1 = [] ∨
      ∃ t', (splitAtFirst sep (c :: t)).1 = c :: t' := by
  rw [splitAtFirst_fst_eq, List.takeWhile_cons]
  by_cases hc : (!(c == sep)) = true
  · rw [if_pos hc]
    exact Or.inr ⟨_, rfl⟩
  · rw [if_neg (by simpa using hc)]
    exact Or.inl rfl

theorem urlsplit_netloc_inv (url : String) :
    ∀ c ∈ (urlsplit url).netloc.data, notNetlocEnd c = true ∧ notCtl c = true := by
  intro c hc
  have hc1 : c ∈ (splitNetloc (splitScheme (sanitizeUrl url.data)).2).1 := hc
  refine ⟨splitNetloc_fst_pred _ c hc1, ?_⟩
  have hc2 : c ∈ sanitizeUrl url.data :=
    splitScheme_snd_subset _ c (splitNetloc_fst_subset _ c hc1)
  exact (List.mem_filter.mp hc2).2

theorem urlsplit_path_inv (url : String) :
    ∀ c ∈ (urlsplit url).path.data,
      (c == '#') = false ∧ (c == '?') = false ∧ notCtl c = true := by
  intro c hc
  have hc1 : c ∈ (splitAtFirst '?'
      (splitAtFirst '#' (splitNetloc (splitScheme (sanitizeUrl url.data)).2).2).1).1 := hc
  refine ⟨?_, splitAtFirst_fst_no_sep _ _ c hc1, ?_⟩
  · exact splitAtFirst_fst_no_sep '#' _ c (splitAtFirst_fst_subset '?' _ c hc1)
  · have hc2 : c ∈ sanitizeUrl url.data :=
      splitScheme_snd_subset _ c (splitNetloc_snd_subset _ c
        (splitAtFirst_fst_subset '#' _ c (splitAtFirst_fst_subset '?' _ c hc1)))
    exact (List.mem_filter.mp hc2).2

theorem urlsplit_fragment_inv (url : String) :
    ∀ c ∈ (urlsplit url).fragment.data, notCtl c = true := by
  intro c hc
  have hc1 : c ∈ (splitAtFirst '#'
      (splitNetloc (splitScheme (sanitizeUrl url.data)).2).2).2 := hc
  have hc2 : c ∈ sanitizeUrl url.data :=
    splitScheme_snd_subset _ c (splitNetloc_snd_subset _ c
      (splitAtFirst_snd_subset '#' _ c hc1))
  exact (List.mem_filter.mp hc2).2

theorem urlsplit_path_start (url : String) (h : (urlsplit url).netloc.data ≠ []) :
    (urlsplit url).path.data = [] ∨ ∃ t, (urlsplit url).path.data = '/' :: t := by
  have hx := splitNetloc_snd_head (splitScheme (sanitizeUrl url.data)).2 h
  show (splitAtFirst '?'
      (splitAtFirst '#' (splitNetloc (splitScheme (sanitizeUrl url.data)).2).2).1).1 = [] ∨
    ∃ t, (splitAtFirst '?'
      (splitAtFirst '#' (splitNetloc (splitScheme (sanitizeUrl url.data)).2).2).1).1 = '/' :: t
  rcases hx with hx | ⟨c, t, hx, hcf⟩
  · rw [hx]
    exact Or.inl rfl
  · rw [hx]
    have hcset : c = '/' ∨ c = '?' ∨ c = '#' := by
      simp only [notNetlocEnd, Bool.not_eq_false', Bool.or_eq_true, beq_iff_eq] at hcf
      tauto
    rcases hcset with rfl | rfl | rfl
    · rcases splitAtFirst_fst_shape '#' '/' t with hfe | ⟨t', hfe⟩
      · rw [hfe]
        exact Or.inl rfl
      · rw [hfe]
        rcases splitAtFirst_fst_shape '?' '/' t' with hqe | ⟨t'', hqe⟩
        · rw [hqe]
          exact Or.inl rfl
        · rw [hqe]
          exact Or.inr ⟨t'', rfl⟩
    · rcases splitAtFirst_fst_shape '#' '?' t with hfe | ⟨t', hfe⟩
      · rw [hfe]
        exact Or.inl rfl
      · rw [hfe]
        rw [show splitAtFirst '?' ('?' :: t') = ([], t') from
          splitAtFirst_append '?' [] t' (by intro x hx2; simp at hx2)]
        exact Or.inl rfl
    · rw [show splitAtFirst '#' ('#' :: t) = ([], t) from
        splitAtFirst_append '#' [] t (by intro x hx2; simp at hx2)]
      exact Or.inl rfl

/-! ### `urlunsplit` then `urlsplit`: the components are recovered -/

theorem isSlashSlash_cons (c : Char) (r : List Char) (hc : (c == '/') = false) :
    isSlashSlash (c :: r) = false := by
  rw [isSlashSlash.eq_def]
  split
  · rename_i rest heq
    injection heq with h1 _
    rw [h1] at hc
    simp at hc
  · rfl

theorem isSlashSlash_one (c : Char) : isSlashSlash [c] = false := by
  rw [isSlashSlash.eq_def]
  split
  · rename_i rest heq
    simp at heq
  · rfl

theorem isSlashSlash_two (b : Char) (r : List Char) (hb : (b == '/') = false) :
    isSlashSlash ('/' :: b :: r) = false := by
  rw [isSlashSlash.eq_def]
  split
  · rename_i rest heq
    injection heq with _ h2
    injection h2 with h2 _
    rw [h2] at hb
    simp at hb
  · rfl

theorem isSlashSlash_true (l : List Char) (h : isSlashSlash l = true) :
    ∃ t, l = '/' :: '/' :: t := by
  rw [isSlashSlash.eq_def] at h
  split at h
  · exact ⟨_, rfl⟩
  · simp at h

theorem isSlashSlash_shape (l : List Char) (h : isSlashSlash l = false) :
    l = [] ∨ l = ['/'] ∨ (∃ c t, l = c :: t ∧ (c == '/') = false) ∨
      (∃ b t, l = '/' :: b :: t ∧ (b == '/') = false) := by
  cases l with
  | nil => exact Or.inl rfl
  | cons c t =>
    by_cases hc : c = '/'
    · subst hc
      cases t with
      | nil => exact Or.inr (Or.inl rfl)
      | cons b t2 =>
        by_cases hb : b = '/'
        · subst hb
          rw [show isSlashSlash ('/' :: '/' :: t2) = true from rfl] at h
          simp at h
        · exact Or.inr (Or.inr (Or.inr ⟨b, t2, rfl, by simp [hb]⟩))
    · exact Or.inr (Or.inr (Or.inl ⟨c, t, rfl, by simp [hc]⟩))

theorem isSlashSlash_append_left (pa r : List Char) (hss : isSlashSlash pa = false)
    (hr : ∀ c t2, r = c :: t2 → (c == '/') = false) :
    isSlashSlash (pa ++ r) = false := by
  rcases isSlashSlash_shape pa hss with rfl | rfl | ⟨c, t, rfl, hc⟩ | ⟨b, t, rfl, hb⟩
  · cases r with
    | nil => rfl
    | cons c t2 => exact isSlashSlash_cons c t2 (hr c t2 rfl)
  · cases r with
    | nil => exact isSlashSlash_one '/'
    | cons c t2 => exact isSlashSlash_two c t2 (hr c t2 rfl)
  · exact isSlashSlash_cons c (t ++ r) hc
  · exact isSlashSlash_two b (t ++ r) hb

/-- Zeta-expanded form of `urlunsplit` on raw component lists. -/
theorem urlunsplit_data_eq (s n pa q f : List Char) :
    (urlunsplit ⟨⟨s⟩, ⟨n⟩, ⟨pa⟩, ⟨q⟩, ⟨f⟩⟩).data =
      (let u1 :=
        if n ≠ [] || isSlashSlash pa then
          '/' :: '/' :: (n ++ (match pa with
            | [] => []
            | c :: _ => if c == '/' then pa else '/' :: pa))
        else pa
      let u2 := if s ≠ [] then s ++ ':' :: u1 else u1
      let u3 := if q ≠ [] then u2 ++ '?' :: q else u2
      if f ≠ [] then u3 ++ '#' :: f else u3) := rfl

/-- A URL without authority: `scheme:path[?query][#fragment]`. -/
theorem urlunsplit_no_auth (s n pa q f : List Char) (hn0 : n = [])
    (hss : isSlashSlash pa = false) (hs0 : s ≠ []) :
    (urlunsplit ⟨⟨s⟩, ⟨n⟩, ⟨pa⟩, ⟨q⟩, ⟨f⟩⟩).data =
      s ++ ':' :: ((if f ≠ [] then
          (if q ≠ [] then pa ++ '?' :: q else pa) ++ '#' :: f
        else (if q ≠ [] then pa ++ '?' :: q else pa))) := by
  rw [urlunsplit_data_eq]
  subst hn0
  have hc : (decide (¬([] : List Char) = []) || isSlashSlash pa) = false := by simp [hss]
  simp only [hc, Bool.false_eq_true, if_false, if_pos hs0]
  by_cases hq0 : q = [] <;> by_cases hf0 : f = [] <;>
    simp [hq0, hf0, List.append_assoc]

/-- A URL with authority and empty path. -/
theorem urlunsplit_auth_nil (s n q f : List Char) (hs0 : s ≠ []) (hn0 : n ≠ []) :
    (urlunsplit ⟨⟨s⟩, ⟨n⟩, ⟨([] : List Char)⟩, ⟨q⟩, ⟨f⟩⟩).data =
      s ++ ':' :: ('/' :: '/' :: (n ++ (if f ≠ [] then
          (if q ≠ [] then ([] : List Char) ++ '?' :: q else []) ++ '#' :: f
        else (if q ≠ [] then ([] : List Char) ++ '?' :: q else [])))) := by
  rw [urlunsplit_data_eq]
  by_cases hq0 : q = [] <;> by_cases hf0 : f = [] <;>
    simp [hq0, hf0, hn0, hs0, List.append_assoc]

/-- A URL with authority and a slash-initial path. -/
theorem urlunsplit_auth_slash (s n t q f : List Char) (hs0 : s ≠ [])
    (hcond : (decide (¬n = []) || isSlashSlash ('/' :: t)) = true) :
    (urlunsplit ⟨⟨s⟩, ⟨n⟩, ⟨'/' :: t⟩, ⟨q⟩, ⟨f⟩⟩).data =
      s ++ ':' :: ('/' :: '/' :: (n ++ (if f ≠ [] then
          (if q ≠ [] then ('/' :: t) ++ '?' :: q else '/' :: t) ++ '#' :: f
        else (if q ≠ [] then ('/' :: t) ++ '?' :: q else '/' :: t)))) := by
  rw [urlunsplit_data_eq]
  have hcond2 : ¬n = [] ∨ isSlashSlash ('/' :: t) = true := by
    rcases Bool.or_eq_true_iff.mp hcond with h | h
    · exact Or.inl (of_decide_eq_true h)
    · exact Or.inr h
  by_cases hq0 : q = [] <;> by_cases hf0 : f = [] <;>
    simp [hq0, hf0, hcond2, hs0, List.append_assoc]

theorem splitNetloc_assembled (n rest : List Char)
    (hn : ∀ c ∈ n, notNetlocEnd c = true)
    (hrest : rest = [] ∨ ∃ c t, rest = c :: t ∧ notNetlocEnd c = false) :
    splitNetloc ('/' :: '/' :: (n ++ rest)) = (n, rest) := by
  show ((n ++ rest).takeWhile notNetlocEnd, (n ++ rest).dropWhile notNetlocEnd) = (n, rest)
  rw [takeWhile_append_all _ n rest hn, dropWhile_append_all _ n rest hn]
  rcases hrest with rfl | ⟨c, t, rfl, hc⟩
  · simp
  · rw [List.takeWhile_cons, if_neg (by simp [hc]), List.dropWhile_cons,
      if_neg (by simp [hc]), List.append_nil]

theorem splitAtFirst_wrap (sep : Char) (a b : List Char)
    (ha : ∀ c ∈ a, (c == sep) = false) :
    splitAtFirst sep (if b ≠ [] then a ++ sep :: b else a) = (a, b) := by
  by_cases hb : b = []
  · subst hb
    rw [if_neg (by simp), splitAtFirst_no_sep sep a ha]
  · rw [if_pos hb, splitAtFirst_append sep a b ha]

theorem schemeList_no_colon (c0 : Char) (cs : List Char)
    (hsv : (isAsciiAlpha c0 && cs.all isSchemeChar) = true) :
    ∀ c ∈ c0 :: cs, (c == ':') = false ∧ notCtl c = true := by
  rw [Bool.and_eq_true] at hsv
  intro c hc
  rcases List.mem_cons.mp hc with rfl | hc
  · have h1 := schemeChar_props c (isAsciiAlpha_isSchemeChar c hsv.1)
    exact ⟨h1.1, h1.2.1⟩
  · have h2 := hsv.2
    rw [List.all_eq_true] at h2
    have h1 := schemeChar_props c (h2 c hc)
    exact ⟨h1.1, h1.2.1⟩

theorem splitScheme_assembled (c0 : Char) (cs rest : List Char)
    (hsv : (isAsciiAlpha c0 && cs.all isSchemeChar) = true)
    (hsl : List.map pyLowerChar (c0 :: cs) = c0 :: cs) :
    splitScheme ((c0 :: cs) ++ ':' :: rest) = (c0 :: cs, rest) := by
  have hsp := splitFirstChar_append ':' (c0 :: cs) rest
    (fun c hc => (schemeList_no_colon c0 cs hsv c hc).1)
  rw [splitScheme_eq_valid ((c0 :: cs) ++ ':' :: rest) rest c0 cs hsp hsv, hsl]

theorem sanitizeUrl_id (c0 : Char) (t : List Char)
    (h0 : 32 < c0.toNat) (hctl : ∀ c ∈ c0 :: t, notCtl c = true) :
    sanitizeUrl (c0 :: t) = c0 :: t := by
  rw [sanitizeUrl, List.dropWhile_cons, if_neg (by simp only [decide_eq_true_eq]; omega)]
  exact List.filter_eq_self.mpr hctl

/-- The head of the `path?query#fragment` suffix written by `urlunsplit`
either is empty or ends the netloc scan. -/
theorem queryFragTail_head (pa q f : List Char) (hpa : pa = [] ∨ ∃ t, pa = '/' :: t) :
    (if f ≠ [] then (if q ≠ [] then pa ++ '?' :: q else pa) ++ '#' :: f
     else (if q ≠ [] then pa ++ '?' :: q else pa)) = [] ∨
    ∃ c t2, (if f ≠ [] then (if q ≠ [] then pa ++ '?' :: q else pa) ++ '#' :: f
     else (if q ≠ [] then pa ++ '?' :: q else pa)) = c :: t2 ∧ notNetlocEnd c = false := by
  rcases hpa with rfl | ⟨t, rfl⟩
  · by_cases hf0 : f ≠ []
    · by_cases hq0 : q ≠ []
      · rw [if_pos hf0, if_pos hq0]
        exact Or.inr ⟨'?', q ++ '#' :: f, by simp, by decide⟩
      · rw [if_pos hf0, if_neg hq0]
        exact Or.inr ⟨'#', f, by simp, by decide⟩
    · by_cases hq0 : q ≠ []
      · rw [if_neg hf0, if_pos hq0]
        exact Or.inr ⟨'?', q, by simp, by decide⟩
      · rw [if_neg hf0, if_neg hq0]
        exact Or.inl rfl
  · by_cases hf0 : f ≠ []
    · by_cases hq0 : q ≠ []
      · rw [if_pos hf0, if_pos hq0]
        exact Or.inr ⟨'/', (t ++ '?' :: q) ++ '#' :: f, by simp, by decide⟩
      · rw [if_pos hf0, if_neg hq0]
        exact Or.inr ⟨'/', t ++ '#' :: f, by simp, by decide⟩
    · by_cases hq0 : q ≠ []
      · rw [if_neg hf0, if_pos hq0]
        exact Or.inr ⟨'/', t ++ '?' :: q, by simp, by decide⟩
      · rw [if_neg hf0, if_neg hq0]
        exact Or.inr ⟨'/', t, rfl, by decide⟩

theorem queryFragTail_mem (pa q f : List Char) :
    ∀ c ∈ (if f ≠ [] then (if q ≠ [] then pa ++ '?' :: q else pa) ++ '#' :: f
      else (if q ≠ [] then pa ++ '?' :: q else pa)),
      c ∈ pa ∨ c ∈ q ∨ c ∈ f ∨ c = '?' ∨ c = '#' := by
  intro c hc
  by_cases hf0 : f ≠ []
  · rw [if_pos hf0] at hc
    rcases List.mem_append.mp hc with hc | hc
    · by_cases hq0 : q ≠ []
      · rw [if_pos hq0] at hc
        rcases List.mem_append.mp hc with hc | hc
        · exact Or.inl hc
        rcases List.mem_cons.mp hc with rfl | hc
        · exact Or.inr (Or.inr (Or.inr (Or.inl rfl)))
        · exact Or.inr (Or.inl hc)
      · rw [if_neg hq0] at hc
        exact Or.inl hc
    · rcases List.mem_cons.mp hc with rfl | hc
      · exact Or.inr (Or.inr (Or.inr (Or.inr rfl)))
      · exact Or.inr (Or.inr (Or.inl hc))
  · rw [if_neg hf0] at hc
    by_cases hq0 : q ≠ []
    · rw [if_pos hq0] at hc
      rcases List.mem_append.mp hc with hc | hc
      · exact Or.inl hc
      rcases List.mem_cons.mp hc with rfl | hc
      · exact Or.inr (Or.inr (Or.inr (Or.inl rfl)))
      · exact Or.inr (Or.inl hc)
    · rw [if_neg hq0] at hc
      exact Or.inl hc

theorem splitNetloc_noauth (pa q f : List Char) (hss : isSlashSlash pa = false) :
    splitNetloc (if f ≠ [] then (if q ≠ [] then pa ++ '?' :: q else pa) ++ '#' :: f
      else (if q ≠ [] then pa ++ '?' :: q else pa)) =
    ([], if f ≠ [] then (if q ≠ [] then pa ++ '?' :: q else pa) ++ '#' :: f
      else (if q ≠ [] then pa ++ '?' :: q else pa)) := by
  apply splitNetloc_not_slash
  by_cases hf0 : f ≠ []
  · by_cases hq0 : q ≠ []
    · rw [if_pos hf0, if_pos hq0, List.append_assoc, List.cons_append]
      exact isSlashSlash_append_left pa _ hss (by
        intro c t2 h
        injection h with h1 _
        subst h1
        decide)
    · rw [if_pos hf0, if_neg hq0]
      exact isSlashSlash_append_left pa _ hss (by
        intro c t2 h
        injection h with h1 _
        subst h1
        decide)
  · by_cases hq0 : q ≠ []
    · rw [if_neg hf0, if_pos hq0]
      exact isSlashSlash_append_left pa _ hss (by
        intro c t2 h
        injection h with h1 _
        subst h1
        decide)
    · rw [if_neg hf0, if_neg hq0]
      exact hss

theorem authTail_mem (n pa q f : List Char) :
    ∀ c ∈ ('/' :: '/' :: (n ++ (if f ≠ [] then
        (if q ≠ [] then pa ++ '?' :: q else pa) ++ '#' :: f
      else (if q ≠ [] then pa ++ '?' :: q else pa)))),
      c ∈ n ∨ c ∈ pa ∨ c ∈ q ∨ c ∈ f ∨ c = '/' ∨ c = '?' ∨ c = '#' := by
  intro c hc
  rcases List.mem_cons.mp hc with rfl | hc
  · exact Or.inr (Or.inr (Or.inr (Or.inr (Or.inl rfl))))
  rcases List.mem_cons.mp hc with rfl | hc
  · exact Or.inr (Or.inr (Or.inr (Or.inr (Or.inl rfl))))
  rcases List.mem_append.mp hc with hc | hc
  · exact Or.inl hc
  rcases queryFragTail_mem pa q f c hc with h | h | h | rfl | rfl
  · exact Or.inr (Or.inl h)
  · exact Or.inr (Or.inr (Or.inl h))
  · exact Or.inr (Or.inr (Or.inr (Or.inl h)))
  · exact Or.inr (Or.inr (Or.inr (Or.inr (Or.inr (Or.inl rfl)))))
  · exact Or.inr (Or.inr (Or.inr (Or.inr (Or.inr (Or.inr rfl)))))

theorem noauthTail_mem (n pa q f : List Char) :
    ∀ c ∈ (if f ≠ [] then (if q ≠ [] then pa ++ '?' :: q else pa) ++ '#' :: f
      else (if q ≠ [] then pa ++ '?' :: q else pa)),
      c ∈ n ∨ c ∈ pa ∨ c ∈ q ∨ c ∈ f ∨ c = '/' ∨ c = '?' ∨ c = '#' := by
  intro c hc
  rcases queryFragTail_mem pa q f c hc with h | h | h | rfl | rfl
  · exact Or.inr (Or.inl h)
  · exact Or.inr (Or.inr (Or.inl h))
  · exact Or.inr (Or.inr (Or.inr (Or.inl h)))
  · exact Or.inr (Or.inr (Or.inr (Or.inr (Or.inr (Or.inl rfl)))))
  · exact Or.inr (Or.inr (Or.inr (Or.inr (Or.inr (Or.inr rfl)))))

/-- `urlsplit` recovers exactly the components that `urlunsplit`
assembles, given the invariants `urlsplit` itself guarantees for its
output and a nonempty, valid, already-lowercased scheme. -/
theorem urlsplit_urlunsplit (s n pa q f : List Char) (c0 : Char) (cs : List Char)
    (hsd : s = c0 :: cs)
    (hsv : (isAsciiAlpha c0 && cs.all isSchemeChar) = true)
    (hsl : List.map pyLowerChar (c0 :: cs) = c0 :: cs)
    (hn : ∀ c ∈ n, notNetlocEnd c = true ∧ notCtl c = true)
    (hp : ∀ c ∈ pa, (c == '#') = false ∧ (c == '?') = false ∧ notCtl c = true)
    (hps : n ≠ [] → (pa = [] ∨ ∃ t, pa = '/' :: t))
    (hq : ∀ c ∈ q, (c == '#') = false ∧ (c == '?') = false ∧ notCtl c = true)
    (hf : ∀ c ∈ f, notCtl c = true) :
    urlsplit (urlunsplit ⟨⟨s⟩, ⟨n⟩, ⟨pa⟩, ⟨q⟩, ⟨f⟩⟩) = ⟨⟨s⟩, ⟨n⟩, ⟨pa⟩, ⟨q⟩, ⟨f⟩⟩ := by
  subst hsd
  have hs0 : (c0 :: cs : List Char) ≠ [] := by simp
  have hkey : ∃ tail : List Char,
      (urlunsplit ⟨⟨c0 :: cs⟩, ⟨n⟩, ⟨pa⟩, ⟨q⟩, ⟨f⟩⟩).data = (c0 :: cs) ++ ':' :: tail ∧
      splitNetloc tail =
        (n, if f ≠ [] then (if q ≠ [] then pa ++ '?' :: q else pa) ++ '#' :: f
            else (if q ≠ [] then pa ++ '?' :: q else pa)) ∧
      (∀ c ∈ tail, c ∈ n ∨ c ∈ pa ∨ c ∈ q ∨ c ∈ f ∨ c = '/' ∨ c = '?' ∨ c = '#') := by
    by_cases hn0 : n = []
    · subst hn0
      by_cases hslash : isSlashSlash pa = true
      · obtain ⟨t, rfl⟩ := isSlashSlash_true pa hslash
        exact ⟨_, urlunsplit_auth_slash (c0 :: cs) [] ('/' :: t) q f hs0 (by simp [hslash]),
          splitNetloc_assembled [] _ (by intro c hc; simp at hc)
            (queryFragTail_head _ q f (Or.inr ⟨'/' :: t, rfl⟩)),
          authTail_mem [] _ q f⟩
      · have hss2 : isSlashSlash pa = false := by
          cases hx : isSlashSlash pa
          · rfl
          · exact absurd hx hslash
        exact ⟨_, urlunsplit_no_auth (c0 :: cs) [] pa q f rfl hss2 hs0,
          splitNetloc_noauth pa q f hss2, noauthTail_mem [] pa q f⟩
    · rcases hps hn0 with hpa0 | ⟨t, hpa1⟩
      · subst hpa0
        exact ⟨_, urlunsplit_auth_nil (c0 :: cs) n q f hs0 hn0,
          splitNetloc_assembled n _ (fun c hc => (hn c hc).1)
            (queryFragTail_head [] q f (Or.inl rfl)),
          authTail_mem n [] q f⟩
      · subst hpa1
        exact ⟨_, urlunsplit_auth_slash (c0 :: cs) n t q f hs0 (by simp [hn0]),
          splitNetloc_assembled n _ (fun c hc => (hn c hc).1)
            (queryFragTail_head ('/' :: t) q f (Or.inr ⟨t, rfl⟩)),
          authTail_mem n ('/' :: t) q f⟩
  obtain ⟨tail, hu, hsn, hmem⟩ := hkey
  have hsc := schemeList_no_colon c0 cs hsv
  have hc0 : 32 < c0.toNat := by
    have h1 : isAsciiAlpha c0 = true := by
      have h2 := hsv
      rw [Bool.and_eq_true] at h2
      exact h2.1
    simp only [isAsciiAlpha, Bool.or_eq_true, Bool.and_eq_true, decide_eq_true_eq] at h1
    omega
  have hctl : ∀ c ∈ (c0 :: cs) ++ ':' :: tail, notCtl c = true := by
    intro c hc
    rcases List.mem_append.mp hc with hc | hc
    · exact (hsc c hc).2
    rcases List.mem_cons.mp hc with rfl | hc
    · decide
    rcases hmem c hc with h | h | h | h | rfl | rfl | rfl
    · exact (hn c h).2
    · exact (hp c h).2.2
    · exact (hq c h).2.2
    · exact hf c h
    · decide
    · decide
    · decide
  have hsan : sanitizeUrl (urlunsplit ⟨⟨c0 :: cs⟩, ⟨n⟩, ⟨pa⟩, ⟨q⟩, ⟨f⟩⟩).data
      = (c0 :: cs) ++ ':' :: tail := by
    rw [hu]
    exact sanitizeUrl_id c0 (cs ++ ':' :: tail) hc0 hctl
  have hssa := splitScheme_assembled c0 cs tail hsv hsl
  have e1 : (splitScheme (sanitizeUrl
      (urlunsplit ⟨⟨c0 :: cs⟩, ⟨n⟩, ⟨pa⟩, ⟨q⟩, ⟨f⟩⟩).data)).1 = c0 :: cs := by
    rw [hsan, hssa]
  have e2 : (splitScheme (sanitizeUrl
      (urlunsplit ⟨⟨c0 :: cs⟩, ⟨n⟩, ⟨pa⟩, ⟨q⟩, ⟨f⟩⟩).data)).2 = tail := by
    rw [hsan, hssa]
  have e3 : (splitNetloc (splitScheme (sanitizeUrl
      (urlunsplit ⟨⟨c0 :: cs⟩, ⟨n⟩, ⟨pa⟩, ⟨q⟩, ⟨f⟩⟩).data)).2).1 = n := by
    rw [e2, hsn]
  have e4 : (splitNetloc (splitScheme (sanitizeUrl
      (urlunsplit ⟨⟨c0 :: cs⟩, ⟨n⟩, ⟨pa⟩, ⟨q⟩, ⟨f⟩⟩).data)).2).2
      = (if f ≠ [] then (if q ≠ [] then pa ++ '?' :: q else pa) ++ '#' :: f
         else (if q ≠ [] then pa ++ '?' :: q else pa)) := by
    rw [e2, hsn]
  have e5 := splitAtFirst_wrap '#' (if q ≠ [] then pa ++ '?' :: q else pa) f (by
    intro c hc
    by_cases hq0 : q ≠ []
    · rw [if_pos hq0] at hc
      rcases List.mem_append.mp hc with hc2 | hc2
      · exact (hp c hc2).1
      rcases List.mem_cons.mp hc2 with rfl | hc3
      · decide
      · exact (hq c hc3).1
    · rw [if_neg hq0] at hc
      exact (hp c hc).1)
  have e5a : (splitAtFirst '#' (if f ≠ [] then
      (if q ≠ [] then pa ++ '?' :: q else pa) ++ '#' :: f
      else (if q ≠ [] then pa ++ '?' :: q else pa))).1
      = (if q ≠ [] then pa ++ '?' :: q else pa) := by rw [e5]
  have e5b : (splitAtFirst '#' (if f ≠ [] then
      (if q ≠ [] then pa ++ '?' :: q else pa) ++ '#' :: f
      else (if q ≠ [] then pa ++ '?' :: q else pa))).2 = f := by rw [e5]
  have e6 := splitAtFirst_wrap '?' pa q (fun c hc => (hp c hc).2.1)
  have e6a : (splitAtFirst '?' (if q ≠ [] then pa ++ '?' :: q else pa)).1 = pa := by rw [e6]
  have e6b : (splitAtFirst '?' (if q ≠ [] then pa ++ '?' :: q else pa)).2 = q := by rw [e6]
  show (⟨⟨(splitScheme (sanitizeUrl (urlunsplit ⟨⟨c0 :: cs⟩, ⟨n⟩, ⟨pa⟩, ⟨q⟩, ⟨f⟩⟩).data)).1⟩,
    ⟨(splitNetloc (splitScheme (sanitizeUrl
      (urlunsplit ⟨⟨c0 :: cs⟩, ⟨n⟩, ⟨pa⟩, ⟨q⟩, ⟨f⟩⟩).data)).2).1⟩,
    ⟨(splitAtFirst '?' (splitAtFirst '#' (splitNetloc (splitScheme (sanitizeUrl
      (urlunsplit ⟨⟨c0 :: cs⟩, ⟨n⟩, ⟨pa⟩, ⟨q⟩, ⟨f⟩⟩).data)).2).2).1).1⟩,
    ⟨(splitAtFirst '?' (splitAtFirst '#' (splitNetloc (splitScheme (sanitizeUrl
      (urlunsplit ⟨⟨c0 :: cs⟩, ⟨n⟩, ⟨pa⟩, ⟨q⟩, ⟨f⟩⟩).data)).2).2).1).2⟩,
    ⟨(splitAtFirst '#' (splitNetloc (splitScheme (sanitizeUrl
      (urlunsplit ⟨⟨c0 :: cs⟩, ⟨n⟩, ⟨pa⟩, ⟨q⟩, ⟨f⟩⟩).data)).2).2).2⟩⟩ : SplitUrl)
      = ⟨⟨c0 :: cs⟩, ⟨n⟩, ⟨pa⟩, ⟨q⟩, ⟨f⟩⟩
  rw [e1, e3, e4, e5a, e5b, e6a, e6b]

theorem normalizeQuery_idem (q : List Char) (hq : ∀ c ∈ q, c.toNat < 128) :
    normalizeQuery (normalizeQuery q) = normalizeQuery q := by
  have hD : ∀ kv ∈ dropCapsKeys (toDict (parseQsl q)),
      (∀ c ∈ kv.1, c.toNat < 256) ∧ (∀ c ∈ kv.2, c.toNat < 256) := by
    intro kv hkv
    exact parseQsl_chars_lt q hq kv (toDict_mem _ kv (List.mem_filter.mp hkv).1)
  have hnd : ((dropCapsKeys (toDict (parseQsl q))).map Prod.fst).Nodup :=
    (toDict_keys_nodup _).sublist (List.Sublist.map Prod.fst (List.filter_sublist _))
  simp only [normalizeQuery]
  rw [parseQsl_urlencode _ hD, toDict_nodup_id _ hnd,
    show dropCapsKeys (dropCapsKeys (toDict (parseQsl q))) = dropCapsKeys (toDict (parseQsl q))
      from List.filter_eq_self.mpr (fun kv hkv => (List.mem_filter.mp hkv).2)]

/-- C8: `_normalize_service_base` is idempotent — normalizing an
already-normalized URL returns it unchanged.  Stated over the modelled
range of service URLs: the URL carries a scheme and its query string is
ASCII. -/
theorem normalize_service_base_idempotent (u : String)
    (hsch : (urlsplit u).scheme ≠ "")
    (hq : ∀ c ∈ (urlsplit u).query.data, c.toNat < 128) :
    normalizeServiceBase (normalizeServiceBase u) = normalizeServiceBase u := by
  rcases hv : urlsplit u with ⟨⟨s⟩, ⟨n⟩, ⟨pa⟩, ⟨q⟩, ⟨f⟩⟩
  have hn := urlsplit_netloc_inv u
  have hp := urlsplit_path_inv u
  have hps := urlsplit_path_start u
  have hf := urlsplit_fragment_inv u
  rw [hv] at hn hp hps hf hq hsch
  have hn' : ∀ c ∈ n, notNetlocEnd c = true ∧ notCtl c = true := hn
  have hp' : ∀ c ∈ pa, (c == '#') = false ∧ (c == '?') = false ∧ notCtl c = true := hp
  have hps' : n ≠ [] → (pa = [] ∨ ∃ t, pa = '/' :: t) := hps
  have hf' : ∀ c ∈ f, notCtl c = true := hf
  have hq128 : ∀ c ∈ q, c.toNat < 128 := hq
  have hs1 : (splitScheme (sanitizeUrl u.data)).1 = s := by
    rw [show (splitScheme (sanitizeUrl u.data)).1 = (urlsplit u).scheme.data from rfl, hv]
  have hs0 : s ≠ [] := by
    intro h
    apply hsch
    show (⟨s⟩ : String) = ""
    rw [h]
  obtain ⟨c0, cs, hsd0, hsv, hsl⟩ := splitScheme_fst_shape (sanitizeUrl u.data)
    (by rw [hs1]; exact hs0)
  have hsd : s = c0 :: cs := by rw [← hs1, hsd0]
  have h1 : normalizeServiceBase u = urlunsplit ⟨⟨s⟩, ⟨n⟩, ⟨pa⟩, ⟨normalizeQuery q⟩, ⟨f⟩⟩ := by
    show urlunsplit { urlsplit u with
      query := String.mk (normalizeQuery (urlsplit u).query.data) } = _
    rw [hv]
  have hq' : ∀ c ∈ normalizeQuery q,
      (c == '#') = false ∧ (c == '?') = false ∧ notCtl c = true := by
    intro c hc
    have hc2 : c ∈ urlencodePairs (dropCapsKeys (toDict (parseQsl q))) := hc
    have h3 := urlencodePairs_chars _ c hc2
    exact ⟨h3.1, h3.2.1, h3.2.2.1⟩
  have hrt : urlsplit (urlunsplit ⟨⟨s⟩, ⟨n⟩, ⟨pa⟩, ⟨normalizeQuery q⟩, ⟨f⟩⟩)
      = ⟨⟨s⟩, ⟨n⟩, ⟨pa⟩, ⟨normalizeQuery q⟩, ⟨f⟩⟩ :=
    urlsplit_urlunsplit s n pa (normalizeQuery q) f c0 cs hsd hsv hsl hn' hp' hps' hq' hf'
  have h2 : normalizeServiceBase (normalizeServiceBase u)
      = urlunsplit ⟨⟨s⟩, ⟨n⟩, ⟨pa⟩, ⟨normalizeQuery (normalizeQuery q)⟩, ⟨f⟩⟩ := by
    rw [h1]
    show urlunsplit { urlsplit (urlunsplit ⟨⟨s⟩, ⟨n⟩, ⟨pa⟩, ⟨normalizeQuery q⟩, ⟨f⟩⟩) with
      query := String.mk (normalizeQuery
        (urlsplit (urlunsplit ⟨⟨s⟩, ⟨n⟩, ⟨pa⟩, ⟨normalizeQuery q⟩, ⟨f⟩⟩)).query.data) } = _
    rw [hrt]
  rw [h2, normalizeQuery_idem q hq128, ← h1]

/-- Witness for C8 at a concrete service URL. -/
theorem normalize_service_base_idempotent_witness :
    (urlsplit "http://h/p?a=1&Service=WMS&b=x%20y").scheme ≠ "" ∧
    normalizeServiceBase (normalizeServiceBase "http://h/p?a=1&Service=WMS&b=x%20y")
      = normalizeServiceBase "http://h/p?a=1&Service=WMS&b=x%20y" :=
  ⟨by decide, normalize_service_base_idempotent "http://h/p?a=1&Service=WMS&b=x%20y"
    (by decide) (by decide)⟩

/-! ### C2: `load_wms_layers` — 1.3.0 first, 1.1.1 as fallback -/

/-- The observable outcome of one GetCapabilities fetch for one version:
either the HTTP layer or the XML parser raised (`failure` carries the
exception text), or a document tree was obtained together with the
advertised GetMap href and the capabilities URL that worked. -/
inductive WmsFetch where
  | failure (msg : String)
  | success (doc : Option LayerNode) (getmapHref usedCapsUrl : String)

/-- One iteration of the version loop of `load_wms_layers`: an exception
becomes the error `"{ver}: {e}"`; an empty layer list becomes the error
`"No layers found in capabilities (version {ver})."`; otherwise the
parsed layers are returned with the normalized base URL (the advertised
GetMap href when non-empty, else the working capabilities URL). -/
def wmsAttempt (ver : String) (o : WmsFetch) :
    Except String (List WmsEntry × String) :=
  match o with
  | .failure msg => .error (ver ++ ": " ++ msg)
  | .success doc href used =>
    let layers := parseLayersFromCaps doc
    if layers.isEmpty then
      .error ("No layers found in capabilities (version " ++ ver ++ ").")
    else
      .ok (layers, normalizeServiceBase (if href ≠ "" then href else used))

/-- `load_wms_layers`: try `"1.3.0"`, then `"1.1.1"`, short-circuiting on
the first success; when both attempts fail, report both collected error
strings joined by a newline inside the dialog message. -/
def load_wms_layers (o130 o111 : WmsFetch) (link : String) :
    Except String (List WmsEntry × String) :=
  match wmsAttempt "1.3.0" o130 with
  | .ok r => .ok r
  | .error e1 =>
    match wmsAttempt "1.1.1" o111 with
    | .ok r => .ok r
    | .error e2 =>
      .error ("Failed to read WMS GetCapabilities from:\n" ++ link ++
        "\n\nDetails:\n" ++ e1 ++ "\n" ++ e2)

theorem leadsWith_self_append (a b : List Char) : leadsWith a (a ++ b) = true := by
  induction a with
  | nil => rfl
  | cons c cs ih =>
    show (c == c && leadsWith cs (cs ++ b)) = true
    rw [ih, beq_self_eq_true]
    rfl

theorem hasSub_nil_needle (hay : List Char) : hasSub [] hay = true := by
  cases hay with
  | nil => rfl
  | cons c hs => rfl

theorem hasSub_self_append (needle post : List Char) :
    hasSub needle (needle ++ post) = true := by
  cases needle with
  | nil => exact hasSub_nil_needle _
  | cons n ns =>
    show (leadsWith (n :: ns) (n :: (ns ++ post)) || hasSub (n :: ns) (ns ++ post)) = true
    have h := leadsWith_self_append (n :: ns) post
    rw [List.cons_append] at h
    rw [h, Bool.true_or]

theorem hasSub_refl (l : List Char) : hasSub l l = true := by
  have h := hasSub_self_append l []
  rwa [List.append_nil] at h

theorem hasSub_append_right (needle r hay : List Char) (h : hasSub needle hay = true) :
    hasSub needle (r ++ hay) = true := by
  induction r with
  | nil => simpa using h
  | cons c cs ih =>
    show (leadsWith needle (c :: (cs ++ hay)) || hasSub needle (cs ++ hay)) = true
    rw [ih, Bool.or_true]

/-- C2: `load_wms_layers` attempts WMS version 1.3.0 first; an attempt
succeeds exactly when its fetch/parse succeeded and produced a non-empty
layer list; a 1.3.0 success fixes the result without consulting the
1.1.1 outcome; when 1.3.0 fails and 1.1.1 succeeds the result is exactly
the 1.1.1 layer list and base URL; and when both fail the reported
message is the fixed header followed by both version-tagged error
strings, so it contains each attempt's message as a substring. -/
theorem load_wms_layers_claim (o130 o111 : WmsFetch) (link : String) :
    (∀ r, wmsAttempt "1.3.0" o130 = .ok r → load_wms_layers o130 o111 link = .ok r) ∧
    (∀ ver o, (∃ r, wmsAttempt ver o = Except.ok r) ↔
      (∃ doc href used, o = .success doc href used ∧ parseLayersFromCaps doc ≠ [])) ∧
    (∀ e1 doc href used,
      wmsAttempt "1.3.0" o130 = .error e1 →
      o111 = .success doc href used →
      parseLayersFromCaps doc ≠ [] →
      load_wms_layers o130 o111 link =
        .ok (parseLayersFromCaps doc,
          normalizeServiceBase (if href ≠ "" then href else used))) ∧
    (∀ e1 e2,
      wmsAttempt "1.3.0" o130 = .error e1 →
      wmsAttempt "1.1.1" o111 = .error e2 →
      load_wms_layers o130 o111 link =
        .error ("Failed to read WMS GetCapabilities from:\n" ++ link ++
          "\n\nDetails:\n" ++ e1 ++ "\n" ++ e2) ∧
      strHasSub e1 ("Failed to read WMS GetCapabilities from:\n" ++ link ++
          "\n\nDetails:\n" ++ e1 ++ "\n" ++ e2) = true ∧
      strHasSub e2 ("Failed to read WMS GetCapabilities from:\n" ++ link ++
          "\n\nDetails:\n" ++ e1 ++ "\n" ++ e2) = true) := by
  refine ⟨?_, ?_, ?_, ?_⟩
  · intro r h1
    simp only [load_wms_layers]
    rw [h1]
  · intro ver o
    constructor
    · rintro ⟨r, hr⟩
      cases o with
      | failure msg => simp [wmsAttempt] at hr
      | success doc href used =>
        refine ⟨doc, href, used, rfl, ?_⟩
        intro hnil
        simp [wmsAttempt, hnil] at hr
    · rintro ⟨doc, href, used, rfl, hne⟩
      have hie : (parseLayersFromCaps doc).isEmpty = false := by
        cases hh : parseLayersFromCaps doc with
        | nil => exact absurd hh hne
        | cons a as => rfl
      refine ⟨(parseLayersFromCaps doc,
        normalizeServiceBase (if href ≠ "" then href else used)), ?_⟩
      simp only [wmsAttempt]
      rw [hie]
      rfl
  · intro e1 doc href used h1 ho hne
    subst ho
    have hie : (parseLayersFromCaps doc).isEmpty = false := by
      cases hh : parseLayersFromCaps doc with
      | nil => exact absurd hh hne
      | cons a as => rfl
    simp only [load_wms_layers]
    rw [h1]
    simp only [wmsAttempt]
    rw [hie]
    rfl
  · intro e1 e2 h1 h2
    refine ⟨?_, ?_, ?_⟩
    · simp only [load_wms_layers]
      rw [h1, h2]
    · show hasSub e1.data (String.data _) = true
      simp only [String.data_append, List.append_assoc]
      exact hasSub_append_right _ _ _ (hasSub_append_right _ _ _
        (hasSub_append_right _ _ _ (hasSub_self_append _ _)))
    · show hasSub e2.data (String.data _) = true
      simp only [String.data_append, List.append_assoc]
      exact hasSub_append_right _ _ _ (hasSub_append_right _ _ _
        (hasSub_append_right _ _ _ (hasSub_append_right _ _ _
          (hasSub_append_right _ _ _ (hasSub_refl _)))))

/-! ### C9: the base-candidate loop of `add_wmts_layer` -/

/-- The WMTS layer URI built for one base candidate:
`"&".join(common_params + [f"url={base_url}"])`. -/
def wmtsUri (commonParams : List String) (base : String) : String :=
  String.intercalate "&" (commonParams ++ ["url=" ++ base])

/-- The probing loop of `add_wmts_layer`: build the URI for each base in
order, return the first the validator accepts; on each failure overwrite
`last_err` with `f"Invalid with base: {base_url}"`; when every candidate
fails, raise `RuntimeError(last_err or "Could not create WMTS layer with
any base URL.")`. -/
def wmtsBaseLoop (valid : String → Bool) (commonParams : List String)
    (lastErr : Option String) : List String → Except String String
  | [] =>
    .error (match lastErr with
      | some e => e
      | none => "Could not create WMTS layer with any base URL.")
  | base :: rest =>
    let uri := wmtsUri commonParams base
    if valid uri then .ok uri
    else wmtsBaseLoop valid commonParams (some ("Invalid with base: " ++ base)) rest

/-- `base_candidates = [b for b in [caps_base, tile_base] if b]` with the
two bases run through `_normalize_service_base`. -/
def wmtsBaseCandidates (usedCapsUrl getTileHref : String) : List String :=
  ([normalizeServiceBase usedCapsUrl, normalizeServiceBase getTileHref].filter
    (fun b => !(b == "")))

/-- The base-trying stage of `add_wmts_layer` on its two candidates. -/
def add_wmts_layer_bases (valid : String → Bool) (commonParams : List String)
    (usedCapsUrl getTileHref : String) : Except String String :=
  wmtsBaseLoop valid commonParams none (wmtsBaseCandidates usedCapsUrl getTileHref)

/-- The dialog text of the outer exception handler of `add_wmts_layer`. -/
def add_wmts_layer_err (layerId wmtsLink err : String) : String :=
  "Failed to add WMTS layer:\n" ++ layerId ++ "\nfrom:\n" ++ wmtsLink ++ "\n\n" ++ err

theorem wmtsBaseLoop_ok (valid : String → Bool) (cp : List String) :
    ∀ (l : List String) (le : Option String) (u : String),
      wmtsBaseLoop valid cp le l = .ok u ↔
        ∃ b, l.find? (fun b => valid (wmtsUri cp b)) = some b ∧ u = wmtsUri cp b := by
  intro l
  induction l with
  | nil =>
    intro le u
    constructor
    · intro h
      simp [wmtsBaseLoop] at h
    · rintro ⟨b, hb, _⟩
      simp at hb
  | cons b0 rest ih =>
    intro le u
    simp only [wmtsBaseLoop]
    by_cases hv : valid (wmtsUri cp b0) = true
    · have hfind : List.find? (fun b => valid (wmtsUri cp b)) (b0 :: rest) = some b0 :=
        List.find?_cons_of_pos rest hv
      rw [if_pos hv, hfind]
      constructor
      · intro h
        injection h with h1
        exact ⟨b0, rfl, h1.symm⟩
      · rintro ⟨b, hb, rfl⟩
        injection hb with hb1
        subst hb1
        rfl
    · have hv2 : valid (wmtsUri cp b0) = false := by
        cases hx : valid (wmtsUri cp b0)
        · rfl
        · exact absurd hx hv
      have hfind : List.find? (fun b => valid (wmtsUri cp b)) (b0 :: rest)
          = List.find? (fun b => valid (wmtsUri cp b)) rest :=
        List.find?_cons_of_neg rest (by simp [hv2])
      rw [if_neg (by simp [hv2]), hfind]
      exact ih _ u

theorem wmtsBaseLoop_fail (valid : String → Bool) (cp : List String) :
    ∀ (l : List String) (le : Option String),
      (∀ b ∈ l, valid (wmtsUri cp b) = false) →
      wmtsBaseLoop valid cp le l =
        .error (match l.getLast? with
          | some b => "Invalid with base: " ++ b
          | none => match le with
            | some e => e
            | none => "Could not create WMTS layer with any base URL.") := by
  intro l
  induction l with
  | nil =>
    intro le h
    rfl
  | cons b0 rest ih =>
    intro le h
    have hv := h b0 (by simp)
    simp only [wmtsBaseLoop]
    rw [if_neg (by simp [hv]), ih _ (fun b hb => h b (by simp [hb]))]
    cases rest with
    | nil => rfl
    | cons r1 rs =>
      rw [List.getLast?_cons_cons]
      cases hg : (r1 :: rs).getLast? with
      | none =>
        rw [List.getLast?_eq_none_iff] at hg
        simp at hg
      | some b => rfl

/-- C9 (amended): the base loop of `add_wmts_layer` tries the normalized
capabilities URL first and then the normalized GetTile URL, skipping
empties; the first candidate the validator accepts wins (in order); but
when every candidate fails, the raised error names only the LAST
candidate tried — `last_err` is overwritten on each failure — falling
back to a generic message when no candidate exists. -/
theorem add_wmts_layer_bases_claim (valid : String → Bool) (cp : List String)
    (capsUrl tileUrl : String) :
    (normalizeServiceBase capsUrl ≠ "" → normalizeServiceBase tileUrl ≠ "" →
      wmtsBaseCandidates capsUrl tileUrl =
        [normalizeServiceBase capsUrl, normalizeServiceBase tileUrl]) ∧
    (∀ u, add_wmts_layer_bases valid cp capsUrl tileUrl = .ok u ↔
      ∃ b, (wmtsBaseCandidates capsUrl tileUrl).find?
          (fun b => valid (wmtsUri cp b)) = some b ∧ u = wmtsUri cp b) ∧
    ((∀ b ∈ wmtsBaseCandidates capsUrl tileUrl, valid (wmtsUri cp b) = false) →
      add_wmts_layer_bases valid cp capsUrl tileUrl =
        .error (match (wmtsBaseCandidates capsUrl tileUrl).getLast? with
          | some b => "Invalid with base: " ++ b
          | none => "Could not create WMTS layer with any base URL.")) := by
  refine ⟨?_, ?_, ?_⟩
  · intro h1 h2
    simp only [wmtsBaseCandidates, List.filter]
    rw [show (!(normalizeServiceBase capsUrl == "")) = true by simp [h1],
      show (!(normalizeServiceBase tileUrl == "")) = true by simp [h2]]
  · intro u
    exact wmtsBaseLoop_ok valid cp _ none u
  · intro hall
    show wmtsBaseLoop valid cp none (wmtsBaseCandidates capsUrl tileUrl) = _
    rw [wmtsBaseLoop_fail valid cp _ none hall]

/-- C9 counterexample: two non-empty candidates, both rejected — the
error names only the second (GetTile) base; the first base does not
occur in the message at all. -/
theorem add_wmts_layer_error_counterexample :
    wmtsBaseCandidates "http://a/x" "http://b/y" = ["http://a/x", "http://b/y"] ∧
    add_wmts_layer_bases (fun _ => false) [] "http://a/x" "http://b/y" =
      .error "Invalid with base: http://b/y" ∧
    strHasSub "http://a/x" "Invalid with base: http://b/y" = false := by
  refine ⟨by decide, ?_, by decide⟩
  rfl

end EuropeOrtho
